import Mathlib

/-!
Verification of the row-multiset algebra engine of `rcsvtools`
(`src/csvdata.rs`).  The Rust `CsvData` struct and its operations are
shallowly embedded below: `Vec<String>` becomes `List String`, the
`BTreeMap`/`HashMap` multiplicity maps become sorted association lists,
and a Rust panic (usize underflow in `pad`) becomes an `Option` failure.
-/

/-- The `CsvData` struct: a flat token sequence, a delimiter character,
and the grouping width used when iterating the tokens as rows. -/
structure CsvData where
  data : List String
  delimiter : Char
  line_width : Nat
  deriving DecidableEq, Repr

/-- Rust `str::split(char)` at the character-list level: splitting on the
delimiter, where the empty string yields one empty field. -/
def splitCharList (d : Char) : List Char → List (List Char)
  | [] => [[]]
  | c :: cs =>
    if c = d then [] :: splitCharList d cs
    else
      match splitCharList d cs with
      | [] => [[c]]
      | t :: ts => (c :: t) :: ts

/-- Rust `String::split(delimiter).map(to_string).collect()`. -/
def splitOnChar (d : Char) (s : String) : List String :=
  (splitCharList d s.data).map (fun l => ⟨l⟩)

/-- Rust `Vec::join(sep)` with a single-character separator. -/
def joinD (d : Char) : List String → String
  | [] => ""
  | [s] => s
  | s :: rest => s ++ String.singleton d ++ joinD d rest

/-- Fuel-driven window grouping; the fuel only serves termination and is
irrelevant once it dominates the list length (`chunksF_congr`). -/
def chunksF (w : Nat) : Nat → List String → List (List String)
  | 0, _ => []
  | _, [] => []
  | fuel + 1, xs => xs.take w :: chunksF w fuel (xs.drop w)

/-- The row iterator of `CsvData` (`CsvDataIterator::next`): group a flat
token sequence into windows of `w` tokens, the last window possibly
shorter.  The Rust iterator never terminates when `line_width = 0`; the
model returns `[]` in that out-of-model case (the spec requires a
positive `row_width`). -/
def chunks (w : Nat) (xs : List String) : List (List String) :=
  if w = 0 then [] else chunksF w xs.length xs

/-- The row key of a row `v` relative to target width `width`
(the body of the fold in `lines_map_from_csv` and of the `union`
closure): join the tokens with the delimiter, then append the literal
marker `", "` once per `|v.len() - width|` (Rust computes the absolute
difference with `.abs()`). -/
def rowKey (d : Char) (width : Nat) (v : List String) : String :=
  joinD d v ++ String.join (List.replicate ((v.length : Int) - (width : Int)).natAbs ", ")

/-- Strict comparison on characters (Rust compares `char`s by code
point; UTF-8 byte order agrees with code-point order). -/
def charLtB (a b : Char) : Bool := decide (a < b)

/-- Lexicographic lifting of a strict element comparison to lists, the
order `Ord` gives Rust's `String` (over bytes) and `Vec<String>` (over
component strings): a strict prefix is smaller. -/
def lexLt {κ : Type} (ltE : κ → κ → Bool) : List κ → List κ → Bool
  | _, [] => false
  | [], _ :: _ => true
  | a :: as, b :: bs =>
    if ltE a b then true else if ltE b a then false else lexLt ltE as bs

/-- Rust `Ord` on `String`: byte-lexicographic, modeled character-wise. -/
def strLt (s₁ s₂ : String) : Bool := lexLt charLtB s₁.data s₂.data

/-- Rust `Ord` on `Vec<String>`: lexicographic over component strings. -/
def rowLt (r₁ r₂ : List String) : Bool := lexLt strLt r₁ r₂

/-- `map.entry(k).or_insert(dflt)` followed by an in-place update `f`,
on an association list sorted by the strict comparison `lt` (the model
of `BTreeMap`; also used for the `HashMap` in `difference_all`, which
is only ever read back by key). -/
def upsert {κ ν : Type} [DecidableEq κ] (lt : κ → κ → Bool) (k : κ) (dflt : ν) (f : ν → ν) :
    List (κ × ν) → List (κ × ν)
  | [] => [(k, f dflt)]
  | (k', v) :: rest =>
    if k = k' then (k', f v) :: rest
    else if lt k k' then (k, f dflt) :: (k', v) :: rest
    else (k', v) :: upsert lt k dflt f rest

/-- First-match lookup in an association list (`BTreeMap::get`). -/
def lookupA {κ ν : Type} [DecidableEq κ] (k : κ) : List (κ × ν) → Option ν
  | [] => none
  | (k', v) :: rest => if k = k' then some v else lookupA k rest

/-- Lookup with default 0 (counts). -/
def lookupN {κ : Type} [DecidableEq κ] (m : List (κ × Nat)) (k : κ) : Nat :=
  (lookupA k m).getD 0

/-- Keys strictly ascend with respect to `lt` (the `BTreeMap` shape
invariant of the association-list model). -/
def SortedK {κ ν : Type} (lt : κ → κ → Bool) (m : List (κ × ν)) : Prop :=
  m.Pairwise (fun p q => lt p.1 q.1 = true)

/-- `CsvData::lines_map_from_csv`: fold the grid's rows into a
(sorted) multiplicity map from padded row key to occurrence count. -/
def lines_map_from_csv (c : CsvData) (width : Nat) : List (String × Nat) :=
  (chunks c.line_width c.data).foldl
    (fun acc v => upsert strLt (rowKey c.delimiter width v) 0 (· + 1) acc) []

/-- `CsvData::from_raw_string`: split the raw text on the delimiter and
push `vec.len() % line_width` single-space tokens. -/
def from_raw_string (data : String) (delimiter : Char) (line_width : Nat) : CsvData :=
  if data = "" then ⟨[], delimiter, line_width⟩
  else
    let vec := splitOnChar delimiter data
    ⟨vec ++ List.replicate (vec.length % line_width) " ", delimiter, line_width⟩

/-- Occurrence count of a row key among a grid's rows, keys padded to
`width` (what `lines_map_from_csv` tabulates). -/
def keyCount (c : CsvData) (width : Nat) (k : String) : Nat :=
  ((chunks c.line_width c.data).map (rowKey c.delimiter width)).count k

/-- The key sequence materialized by `union`'s map iteration (each key
emitted `count` times, in map order). -/
def mapKeysRepeated (m : List (String × Nat)) : List String :=
  m.flatMap (fun kv => List.replicate kv.2 kv.1)

/-- The merged multiplicity map built inside `CsvData::union`: start from
`grid_a`'s map and fold `grid_b`'s rows into it (keys joined with
`self`'s delimiter, as in the source). -/
def unionMap (a b : CsvData) : List (String × Nat) :=
  (chunks b.line_width b.data).foldl
    (fun acc v => upsert strLt (rowKey a.delimiter (max a.line_width b.line_width) v) 0 (· + 1) acc)
    (lines_map_from_csv a (max a.line_width b.line_width))

/-- `CsvData::union`. -/
def union (a b : CsvData) : Option CsvData :=
  if a.delimiter ≠ b.delimiter then none
  else
    some ⟨(mapKeysRepeated (unionMap a b)).flatMap (fun s => splitOnChar a.delimiter s),
      a.delimiter, max a.line_width b.line_width⟩

/-- The key sequence materialized by `CsvData::intersection`: keys of
`mA` also present in `mB`, each repeated `min` of the two counts. -/
def interKeys (mA mB : List (String × Nat)) : List String :=
  (mA.filter (fun kv => (lookupA kv.1 mB).isSome)).flatMap
    (fun kv => List.replicate (min kv.2 (lookupN mB kv.1)) kv.1)

/-- `CsvData::intersection`. -/
def intersection (a b : CsvData) : Option CsvData :=
  if a.delimiter ≠ b.delimiter then none
  else
    let width := max a.line_width b.line_width
    some ⟨(interKeys (lines_map_from_csv a width) (lines_map_from_csv b width)).flatMap
        (fun s => splitOnChar a.delimiter s),
      a.delimiter, width⟩

/-- The key sequence materialized by `lines_map_to_difference`: keys of
`map1` absent from `map2`, each repeated its full `map1` count. -/
def diffKeys (m1 m2 : List (String × Nat)) : List String :=
  (m1.filter (fun kv => (lookupA kv.1 m2).isNone)).flatMap
    (fun kv => List.replicate kv.2 kv.1)

/-- `lines_map_to_difference`: the flat tokens of the rows whose key is
in `map1` but not in `map2`, each key split back on the delimiter. -/
def lines_map_to_difference (map1 map2 : List (String × Nat)) (delimiter : Char) :
    List String :=
  (diffKeys map1 map2).flatMap (fun s => splitOnChar delimiter s)

/-- `CsvData::difference`: the A-only block followed by the B-only block. -/
def difference (a b : CsvData) : Option CsvData :=
  if a.delimiter ≠ b.delimiter then none
  else
    let width := max a.line_width b.line_width
    let mA := lines_map_from_csv a width
    let mB := lines_map_from_csv b width
    some ⟨lines_map_to_difference mA mB a.delimiter ++
        lines_map_to_difference mB mA a.delimiter,
      a.delimiter, width⟩

/-- One row of `pad`: `let abs = line_width - data.len()` is a usize
subtraction, so a row longer than the target width makes the Rust
function panic; the model returns `none` there.  Otherwise the row is
re-emitted followed by `abs` empty-string tokens. -/
def padRow (w : Nat) (r : List String) : Option (List String) :=
  if w < r.length then none else some (r ++ List.replicate (w - r.length) "")

/-- `pad` on a single grid. -/
def padCsv (w : Nat) (c : CsvData) : Option CsvData :=
  ((chunks c.line_width c.data).mapM (padRow w)).map
    (fun rs => ⟨rs.flatten, c.delimiter, w⟩)

/-- `pad(csvs, line_width)`: `none` models the panic on any too-long row. -/
def pad (csvs : List CsvData) (line_width : Nat) : Option (List CsvData) :=
  csvs.mapM (padCsv line_width)

/-- Total padding of one row (the non-panicking branch of `pad`). -/
def padRowT (w : Nat) (r : List String) : List String :=
  r ++ List.replicate (w - r.length) ""

/-- Total padding of one grid. -/
def padCsvT (w : Nat) (c : CsvData) : CsvData :=
  ⟨((chunks c.line_width c.data).map (padRowT w)).flatten, c.delimiter, w⟩

/-- Total `pad`; agrees with `pad` whenever no row exceeds the target
width (`pad_eq_padTotal`), which is the case at every call site in the
source (the target is the maximum of all grid widths). -/
def padTotal (csvs : List CsvData) (w : Nat) : List CsvData :=
  csvs.map (padCsvT w)

/-- `csvs.iter().map(|csv| csv.line_width).max()`, with 0 for the empty
slice (where the Rust `unwrap` panics; all claims assume a non-empty
slice). -/
def maxWidth (csvs : List CsvData) : Nat :=
  csvs.foldl (fun acc c => max acc c.line_width) 0

/-- `union_all`: pad everything to `max(line_width, max grid width)`,
concatenate all rows, and store the caller-supplied `line_width`
verbatim in the result. -/
def union_all (csvs : List CsvData) (delimiter : Char) (line_width : Nat) : CsvData :=
  let width := max line_width (maxWidth csvs)
  let padded := padTotal csvs width
  ⟨(padded.map (fun csv => (chunks csv.line_width csv.data).flatten)).flatten,
    delimiter, line_width⟩

/-- The `try_fold` of `intersection_all`: intersect the accumulator with
the next grid; an incompatible pair or an empty intermediate result
short-circuits to `none`. -/
def tryFoldInter (acc : CsvData) : List CsvData → Option CsvData
  | [] => some acc
  | other :: rest =>
    match intersection acc other with
    | some result => if result.data = [] then none else tryFoldInter result rest
    | none => none

/-- `intersection_all`: pad to the common maximum width, then fold
pairwise intersections from the first grid.  The `[]` branch models the
empty slice, where the Rust `unwrap`s panic. -/
def intersection_all (csvs : List CsvData) : Option CsvData :=
  match padTotal csvs (maxWidth csvs) with
  | [] => none
  | first :: rest => tryFoldInter first rest

/-- `num_ones`: does the bitstring contain exactly one `'1'`?  The Rust
function counts the chars of a `String`; the model keeps the string as
its character list. -/
def num_ones (str : List Char) : Bool :=
  (str.filter (fun c => c = '1')).length == 1

/-- The presence bitstring that `difference_all`'s accumulation
associates with a row key after processing the indexed row list `H`:
position `p` (of `n`) is `'1'` exactly when the event `(p, k)` occurs in
`H` (the key occurred in grid `p`).  Proof-side characterization of the
`replace_range` updates. -/
def bitsOf (n : Nat) (H : List (Nat × List String)) (k : List String) : List Char :=
  (List.range n).map (fun p => if (p, k) ∈ H then '1' else '0')

/-- One row of the `difference_all` accumulation: in the presence map,
insert an all-`'0'` bitstring of length `n` if the row is new and set
position `i` to `'1'` (`replace_range(i..i + 1, "1")`); in the count
map, increment the row's total count. -/
def diffStep (n i : Nat)
    (acc : List (List String × List Char) × List (List String × Nat))
    (line : List String) :
    List (List String × List Char) × List (List String × Nat) :=
  (upsert rowLt line (List.replicate n '0') (fun bits => bits.set i '1') acc.1,
   upsert rowLt line 0 (· + 1) acc.2)

/-- The two maps built by `difference_all` over the enumerated padded
grids.  The Rust count map is a `HashMap`, which is only ever read back
by key, so a sorted association list models it adequately. -/
def diffBuild (n : Nat) (pairs : List (Nat × CsvData)) :
    List (List String × List Char) × List (List String × Nat) :=
  pairs.foldl
    (fun acc p => (chunks p.2.line_width p.2.data).foldl (diffStep n p.1) acc)
    ([], [])

/-- `difference_all`: keep the rows whose presence bitstring has exactly
one `'1'`, each repeated its total accumulated count, in map (row-
lexicographic) order.  The `headD` default is unreachable for the
non-empty slices the claims quantify over (Rust indexes `csvs[0]`). -/
def difference_all (csvs : List CsvData) : CsvData :=
  let width := maxWidth csvs
  let padded := padTotal csvs width
  let maps := diffBuild padded.length padded.enum
  ⟨(maps.1.filter (fun kv => num_ones kv.2)).flatMap
      (fun kv => (List.replicate (lookupN maps.2 kv.1) kv.1).flatten),
    (padded.headD ⟨[], ',', 0⟩).delimiter, width⟩

/-- The text produced by `CsvData::to_file` (the serialization part,
with the file write treated as an external sink): every row joined with
the delimiter and terminated by a newline, concatenated in row order. -/
def toFileContents (c : CsvData) : String :=
  String.join ((chunks c.line_width c.data).map
    (fun s => joinD c.delimiter s ++ "\n"))

/-- The grid built by `CsvData::from_file` from the text it read (the
file read treated as an external source): split into non-empty lines,
split each line on the delimiter, concatenate all tokens; the width is
the maximum over all lines of (delimiter occurrences + 1). -/
def fromFileContents (file : String) (delimiter : Char) : CsvData :=
  let lines := (splitOnChar '\n' file).filter (fun s => s != "")
  ⟨lines.flatMap (fun v => splitOnChar delimiter v),
    delimiter,
    lines.foldl (fun acc v => max acc (v.data.count delimiter + 1)) 0⟩

theorem chunksF_nil (w fuel : Nat) : chunksF w fuel [] = [] := by
  cases fuel <;> rfl

theorem chunksF_congr (w : Nat) (hw : 0 < w) :
    ∀ f₁ f₂ (xs : List String), xs.length ≤ f₁ → xs.length ≤ f₂ →
      chunksF w f₁ xs = chunksF w f₂ xs := by
  intro f₁
  induction f₁ with
  | zero =>
    intro f₂ xs h₁ _
    have : xs = [] := List.eq_nil_of_length_eq_zero (Nat.le_zero.mp h₁)
    subst this
    rw [chunksF_nil, chunksF_nil]
  | succ f ih =>
    intro f₂ xs h₁ h₂
    cases xs with
    | nil => rw [chunksF_nil, chunksF_nil]
    | cons x xs' =>
      cases f₂ with
      | zero => simp at h₂
      | succ f₂' =>
        show _ :: _ = _ :: _
        congr 1
        apply ih
        · simp only [List.length_drop]
          simp at h₁ ⊢
          omega
        · simp only [List.length_drop]
          simp at h₂ ⊢
          omega

theorem chunks_nil (w : Nat) : chunks w [] = [] := by
  unfold chunks
  split <;> simp [chunksF_nil]

theorem chunks_cons (w : Nat) (hw : w ≠ 0) (xs : List String) (hx : xs ≠ []) :
    chunks w xs = xs.take w :: chunks w (xs.drop w) := by
  unfold chunks
  rw [if_neg hw, if_neg hw]
  cases xs with
  | nil => exact absurd rfl hx
  | cons x xs' =>
    show _ :: _ = _ :: _
    congr 1
    apply chunksF_congr w (Nat.pos_of_ne_zero hw)
    · simp only [List.length_drop]; simp; omega
    · exact Nat.le_refl _

theorem chunksF_length_le (w : Nat) :
    ∀ (fuel : Nat) (xs : List String), ∀ r ∈ chunksF w fuel xs, r.length ≤ w := by
  intro fuel
  induction fuel with
  | zero => intro xs r hr; rw [show chunksF w 0 xs = [] by cases xs <;> rfl] at hr; cases hr
  | succ f ih =>
    intro xs r hr
    cases xs with
    | nil => cases hr
    | cons x xs' =>
      rcases List.mem_cons.mp hr with h | h
      · rw [h]; simp [List.length_take]
      · exact ih _ r h

theorem chunks_length_le (w : Nat) (xs : List String) :
    ∀ r ∈ chunks w xs, r.length ≤ w := by
  intro r hr
  unfold chunks at hr
  split at hr
  · cases hr
  · exact chunksF_length_le w _ xs r hr

theorem chunksF_flatten (w : Nat) (hw : 0 < w) :
    ∀ (fuel : Nat) (xs : List String), xs.length ≤ fuel →
      (chunksF w fuel xs).flatten = xs := by
  intro fuel
  induction fuel with
  | zero =>
    intro xs h
    have : xs = [] := List.eq_nil_of_length_eq_zero (Nat.le_zero.mp h)
    subst this; rfl
  | succ f ih =>
    intro xs h
    cases xs with
    | nil => rfl
    | cons x xs' =>
      show (List.take w (x :: xs') :: chunksF w f (List.drop w (x :: xs'))).flatten = _
      rw [List.flatten_cons,
        ih _ (by simp only [List.length_drop, List.length_cons]; simp at h; omega),
        List.take_append_drop]

theorem chunks_flatten (w : Nat) (hw : 0 < w) (xs : List String) :
    (chunks w xs).flatten = xs := by
  unfold chunks
  rw [if_neg (Nat.pos_iff_ne_zero.mp hw)]
  exact chunksF_flatten w hw _ xs (Nat.le_refl _)

theorem chunks_of_blocks (w : Nat) (hw : 0 < w) :
    ∀ bs : List (List String), (∀ b ∈ bs, b.length = w) →
      chunks w bs.flatten = bs := by
  intro bs
  induction bs with
  | nil => intro _; simp [chunks_nil]
  | cons b rest ih =>
    intro hb
    have hbw : b.length = w := hb b (by simp)
    have hbne : b ++ rest.flatten ≠ [] := by
      intro hcon
      have := congrArg List.length hcon
      simp [hbw] at this
      omega
    rw [List.flatten_cons, chunks_cons w (Nat.pos_iff_ne_zero.mp hw) _ hbne]
    rw [← hbw, List.take_left, List.drop_left]
    rw [hbw, ih (fun x hx => hb x (by simp [hx]))]

theorem chunksF_length_exact (w : Nat) (hw : 0 < w) :
    ∀ (fuel : Nat) (xs : List String), xs.length ≤ fuel → xs.length % w = 0 →
      ∀ r ∈ chunksF w fuel xs, r.length = w := by
  intro fuel
  induction fuel with
  | zero =>
    intro xs _ _ r hr
    rw [show chunksF w 0 xs = [] by cases xs <;> rfl] at hr
    cases hr
  | succ f ih =>
    intro xs hlen hmod r hr
    cases xs with
    | nil => cases hr
    | cons y ys' =>
      have h1 : w ∣ (y :: ys').length := Nat.dvd_of_mod_eq_zero hmod
      have hge : w ≤ (y :: ys').length := Nat.le_of_dvd (by simp) h1
      rcases List.mem_cons.mp hr with h | h
      · rw [h]; simp only [List.length_take]; omega
      · refine ih (List.drop w (y :: ys')) ?_ ?_ r h
        · simp only [List.length_drop, List.length_cons]
          simp at hlen
          omega
        · simp only [List.length_drop]
          exact Nat.eq_zero_of_dvd_of_lt (Nat.dvd_sub' h1 dvd_rfl) |> fun _ => by
            have h2 : w ∣ ((y :: ys').length - w) := Nat.dvd_sub' h1 dvd_rfl
            omega

theorem chunks_length_exact (w : Nat) (hw : 0 < w) (xs : List String)
    (hdvd : xs.length % w = 0) : ∀ r ∈ chunks w xs, r.length = w := by
  unfold chunks
  rw [if_neg (Nat.pos_iff_ne_zero.mp hw)]
  exact chunksF_length_exact w hw _ xs (Nat.le_refl _) hdvd

theorem charLtB_irrefl (a : Char) : charLtB a a = false := by
  simp [charLtB]

theorem charLtB_trans {a b c : Char} (h₁ : charLtB a b = true) (h₂ : charLtB b c = true) :
    charLtB a c = true := by
  simp [charLtB] at *
  exact lt_trans h₁ h₂

theorem charLtB_conn {a b : Char} (h₁ : charLtB a b = false) (h₂ : charLtB b a = false) :
    a = b := by
  simp [charLtB] at *
  exact le_antisymm h₂ h₁

section LexOrder

variable {κ : Type} (ltE : κ → κ → Bool)

theorem lexLt_irrefl (Hirr : ∀ a, ltE a a = false) (l : List κ) :
    lexLt ltE l l = false := by
  induction l with
  | nil => rfl
  | cons a as ih => simp [lexLt, Hirr a, ih]

theorem lexLt_trans (Htrans : ∀ {a b c}, ltE a b = true → ltE b c = true → ltE a c = true)
    (Hconn : ∀ {a b}, ltE a b = false → ltE b a = false → a = b) :
    ∀ {l₁ l₂ l₃ : List κ}, lexLt ltE l₁ l₂ = true →
    lexLt ltE l₂ l₃ = true → lexLt ltE l₁ l₃ = true := by
  intro l₁
  induction l₁ with
  | nil =>
    intro l₂ l₃ h₁ h₂
    cases l₂ with
    | nil => exact h₂
    | cons b bs =>
      cases l₃ with
      | nil => simp [lexLt] at h₂
      | cons c cs => rfl
  | cons a as ih =>
    intro l₂ l₃ h₁ h₂
    cases l₂ with
    | nil => simp [lexLt] at h₁
    | cons b bs =>
      cases l₃ with
      | nil => simp [lexLt] at h₂
      | cons c cs =>
        simp only [lexLt] at h₁ h₂ ⊢
        cases hab : ltE a b with
        | true =>
          cases hbc : ltE b c with
          | true => simp [Htrans hab hbc]
          | false =>
            cases hcb : ltE c b with
            | true => simp [hab, hbc, hcb] at h₂
            | false =>
              have : b = c := Hconn hbc hcb
              subst this
              simp [hab]
        | false =>
          cases hba : ltE b a with
          | true => simp [hab, hba] at h₁
          | false =>
            have heq : a = b := Hconn hab hba
            subst heq
            rw [hab] at h₁
            simp only [Bool.false_eq_true, if_false] at h₁
            cases hac : ltE a c with
            | true => simp [hac]
            | false =>
              cases hca : ltE c a with
              | true => simp [hac, hca] at h₂
              | false =>
                simp only [hac, hca, Bool.false_eq_true, if_false] at h₂ ⊢
                exact ih h₁ h₂

theorem lexLt_conn (Hconn : ∀ {a b}, ltE a b = false → ltE b a = false → a = b) :
    ∀ {l₁ l₂ : List κ}, lexLt ltE l₁ l₂ = false →
    lexLt ltE l₂ l₁ = false → l₁ = l₂ := by
  intro l₁
  induction l₁ with
  | nil =>
    intro l₂ h₁ h₂
    cases l₂ with
    | nil => rfl
    | cons b bs => simp [lexLt] at h₁
  | cons a as ih =>
    intro l₂ h₁ h₂
    cases l₂ with
    | nil => simp [lexLt] at h₂
    | cons b bs =>
      simp only [lexLt] at h₁ h₂
      cases hab : ltE a b with
      | true => simp [hab] at h₁
      | false =>
        cases hba : ltE b a with
        | true => simp [hba] at h₂
        | false =>
          have hab' : a = b := Hconn hab hba
          subst hab'
          simp only [hab, Bool.false_eq_true, if_false] at h₁ h₂
          rw [ih h₁ h₂]

end LexOrder

theorem strLt_irrefl (s : String) : strLt s s = false :=
  lexLt_irrefl charLtB charLtB_irrefl s.data

theorem strLt_trans {s₁ s₂ s₃ : String} (h₁ : strLt s₁ s₂ = true)
    (h₂ : strLt s₂ s₃ = true) : strLt s₁ s₃ = true :=
  lexLt_trans charLtB (fun h h' => charLtB_trans h h') (fun h h' => charLtB_conn h h') h₁ h₂

theorem strLt_conn {s₁ s₂ : String} (h₁ : strLt s₁ s₂ = false)
    (h₂ : strLt s₂ s₁ = false) : s₁ = s₂ := by
  have h := lexLt_conn charLtB (fun h h' => charLtB_conn h h') h₁ h₂
  cases s₁
  cases s₂
  exact congrArg String.mk h

theorem rowLt_irrefl (r : List String) : rowLt r r = false :=
  lexLt_irrefl strLt strLt_irrefl r

theorem rowLt_trans {r₁ r₂ r₃ : List String} (h₁ : rowLt r₁ r₂ = true)
    (h₂ : rowLt r₂ r₃ = true) : rowLt r₁ r₃ = true :=
  lexLt_trans strLt (fun h h' => strLt_trans h h') (fun h h' => strLt_conn h h') h₁ h₂

theorem rowLt_conn {r₁ r₂ : List String} (h₁ : rowLt r₁ r₂ = false)
    (h₂ : rowLt r₂ r₁ = false) : r₁ = r₂ :=
  lexLt_conn strLt (fun h h' => strLt_conn h h') h₁ h₂

/-- Lookup success means key membership. -/
theorem lookupA_isSome_mem {κ ν : Type} [DecidableEq κ] (k : κ) :
    ∀ (m : List (κ × ν)) (v : ν), lookupA k m = some v → k ∈ m.map Prod.fst := by
  intro m
  induction m with
  | nil => intro v hv; simp [lookupA] at hv
  | cons p rest ih =>
    intro v hv
    obtain ⟨k', v'⟩ := p
    simp only [lookupA] at hv
    by_cases h : k = k'
    · simp [h]
    · rw [if_neg h] at hv
      simp only [List.map_cons, List.mem_cons]
      exact Or.inr (ih v hv)

/-- Lookup failure means key absence. -/
theorem lookupA_eq_none_of_not_mem {κ ν : Type} [DecidableEq κ] (k : κ) :
    ∀ m : List (κ × ν), k ∉ m.map Prod.fst → lookupA k m = none := by
  intro m
  induction m with
  | nil => intro _; rfl
  | cons p rest ih =>
    intro hk
    obtain ⟨k', v'⟩ := p
    simp only [List.map_cons, List.mem_cons, not_or] at hk
    simp only [lookupA, if_neg hk.1]
    exact ih hk.2

section SortedAssoc

variable {κ ν : Type} [DecidableEq κ] (lt : κ → κ → Bool)

theorem keys_upsert_subset (k : κ) (d : ν) (f : ν → ν) :
    ∀ (m : List (κ × ν)) (j : κ), j ∈ (upsert lt k d f m).map Prod.fst →
      j = k ∨ j ∈ m.map Prod.fst := by
  intro m
  induction m with
  | nil => intro j hj; simp [upsert] at hj; exact Or.inl hj
  | cons p rest ih =>
    intro j hj
    obtain ⟨k', v⟩ := p
    simp only [upsert] at hj
    by_cases h1 : k = k'
    · rw [if_pos h1] at hj
      simp at hj ⊢
      tauto
    · rw [if_neg h1] at hj
      by_cases h2 : lt k k' = true
      · rw [if_pos h2] at hj
        simp at hj ⊢
        tauto
      · rw [if_neg h2] at hj
        simp only [List.map_cons, List.mem_cons] at hj ⊢
        rcases hj with hj | hj
        · tauto
        · rcases ih j hj with h | h
          · tauto
          · tauto

theorem sorted_head_lt (Hirr : ∀ a : κ, lt a a = false) {k : κ} {v : ν}
    {rest : List (κ × ν)} (hs : SortedK lt ((k, v) :: rest)) :
    k ∉ rest.map Prod.fst := by
  intro hmem
  rcases List.mem_map.mp hmem with ⟨p, hp, hpk⟩
  have := (List.pairwise_cons.mp hs).1 p hp
  rw [hpk, Hirr] at this
  exact Bool.false_ne_true this

theorem upsert_sorted
    (Htrans : ∀ {a b c : κ}, lt a b = true → lt b c = true → lt a c = true)
    (Hconn : ∀ {a b : κ}, lt a b = false → lt b a = false → a = b)
    (k : κ) (d : ν) (f : ν → ν) :
    ∀ m : List (κ × ν), SortedK lt m → SortedK lt (upsert lt k d f m) := by
  intro m
  induction m with
  | nil => intro _; simp [upsert, SortedK]
  | cons p rest ih =>
    intro hs
    obtain ⟨k', v⟩ := p
    obtain ⟨hhead, hrest⟩ := List.pairwise_cons.mp hs
    simp only [upsert]
    by_cases h1 : k = k'
    · rw [if_pos h1]
      exact List.pairwise_cons.mpr ⟨hhead, hrest⟩
    · rw [if_neg h1]
      by_cases h2 : lt k k' = true
      · rw [if_pos h2]
        refine List.pairwise_cons.mpr ⟨?_, List.pairwise_cons.mpr ⟨hhead, hrest⟩⟩
        intro q hq
        rcases List.mem_cons.mp hq with hq | hq
        · rw [hq]; exact h2
        · exact Htrans h2 (hhead q hq)
      · rw [if_neg h2]
        refine List.pairwise_cons.mpr ⟨?_, ih hrest⟩
        intro q hq
        rcases keys_upsert_subset lt k d f rest q.1 (List.mem_map.mpr ⟨q, hq, rfl⟩)
          with hq1 | hq1
        · rw [hq1]
          cases h3 : lt k' k with
          | true => rfl
          | false => exact absurd (Hconn (Bool.of_not_eq_true h2) h3) h1
        · rcases List.mem_map.mp hq1 with ⟨q', hq', hqq⟩
          rw [← hqq]
          exact hhead q' hq'

theorem lookupA_upsert_ne (k : κ) (d : ν) (f : ν → ν) {j : κ} (hjk : j ≠ k) :
    ∀ m : List (κ × ν), lookupA j (upsert lt k d f m) = lookupA j m := by
  intro m
  induction m with
  | nil => simp [upsert, lookupA, if_neg hjk]
  | cons p rest ih =>
    obtain ⟨k', v⟩ := p
    simp only [upsert]
    by_cases h1 : k = k'
    · subst h1
      simp [lookupA, if_neg hjk]
    · rw [if_neg h1]
      by_cases h2 : lt k k' = true
      · rw [if_pos h2]
        simp [lookupA, if_neg hjk]
      · rw [if_neg h2]
        simp only [lookupA]
        by_cases h3 : j = k'
        · simp [h3]
        · rw [if_neg h3, if_neg h3]
          exact ih

theorem lookupA_upsert_self
    (Hirr : ∀ a : κ, lt a a = false)
    (Htrans : ∀ {a b c : κ}, lt a b = true → lt b c = true → lt a c = true)
    (k : κ) (d : ν) (f : ν → ν) :
    ∀ m : List (κ × ν), SortedK lt m →
      lookupA k (upsert lt k d f m) = some (f ((lookupA k m).getD d)) := by
  intro m
  induction m with
  | nil => simp [upsert, lookupA]
  | cons p rest ih =>
    intro hs
    obtain ⟨k', v⟩ := p
    obtain ⟨hhead, hrest⟩ := List.pairwise_cons.mp hs
    simp only [upsert]
    by_cases h1 : k = k'
    · rw [if_pos h1]
      simp [lookupA, if_pos h1, h1]
    · rw [if_neg h1]
      by_cases h2 : lt k k' = true
      · rw [if_pos h2]
        have hnotin : k ∉ rest.map Prod.fst := by
          intro hmem
          rcases List.mem_map.mp hmem with ⟨q, hq, hqk⟩
          have := hhead q hq
          rw [hqk] at this
          have := Htrans h2 this
          rw [Hirr] at this
          exact Bool.false_ne_true this
        simp only [lookupA, if_pos rfl, if_neg h1,
          lookupA_eq_none_of_not_mem k rest hnotin]
        rfl
      · rw [if_neg h2]
        simp only [lookupA, if_neg h1]
        exact ih hrest

end SortedAssoc

theorem lookupA_mem {κ ν : Type} [DecidableEq κ] (j : κ) :
    ∀ (m : List (κ × ν)) (v : ν), lookupA j m = some v → (j, v) ∈ m := by
  intro m
  induction m with
  | nil => intro v hv; simp [lookupA] at hv
  | cons p rest ih =>
    intro v hv
    obtain ⟨k', v'⟩ := p
    simp only [lookupA] at hv
    by_cases h : j = k'
    · rw [if_pos h] at hv
      simp only [Option.some.injEq] at hv
      simp [h, hv]
    · rw [if_neg h] at hv
      exact List.mem_cons_of_mem _ (ih v hv)

section SortedAssocMore

variable {κ : Type} [DecidableEq κ] (lt : κ → κ → Bool)

theorem lookupA_of_mem_sorted {ν : Type} (Hirr : ∀ a : κ, lt a a = false) :
    ∀ (m : List (κ × ν)) (j : κ) (v : ν), SortedK lt m → (j, v) ∈ m →
      lookupA j m = some v := by
  intro m
  induction m with
  | nil => intro j v _ hm; cases hm
  | cons p rest ih =>
    intro j v hs hm
    obtain ⟨k', v'⟩ := p
    rcases List.mem_cons.mp hm with hm1 | hm1
    · rw [Prod.mk.injEq] at hm1
      simp only [lookupA]
      rw [if_pos hm1.1, hm1.2]
    · have hne : j ≠ k' := by
        intro hj
        exact sorted_head_lt lt Hirr hs (List.mem_map.mpr ⟨(j, v), hm1, hj⟩)
      simp only [lookupA, if_neg hne]
      exact ih j v (List.pairwise_cons.mp hs).2 hm1

theorem count_flatMap_replicate_of_not_mem (g : κ × Nat → Nat) (j : κ) :
    ∀ m : List (κ × Nat), j ∉ m.map Prod.fst →
      ((m.flatMap fun kv => List.replicate (g kv) kv.1).count j) = 0 := by
  intro m
  induction m with
  | nil => intro _; rfl
  | cons p rest ih =>
    intro hj
    simp only [List.map_cons, List.mem_cons, not_or] at hj
    simp only [List.flatMap_cons, List.count_append, ih hj.2,
      List.count_replicate]
    have : (p.1 == j) = false := by
      simp only [beq_eq_false_iff_ne, ne_eq]
      intro h
      exact hj.1 h.symm
    simp [this]

theorem count_flatMap_replicate_of_mem (Hirr : ∀ a : κ, lt a a = false)
    (g : κ × Nat → Nat) (j : κ) (v : Nat) :
    ∀ m : List (κ × Nat), SortedK lt m → (j, v) ∈ m →
      ((m.flatMap fun kv => List.replicate (g kv) kv.1).count j) = g (j, v) := by
  intro m
  induction m with
  | nil => intro _ hm; cases hm
  | cons p rest ih =>
    intro hs hm
    obtain ⟨k', v'⟩ := p
    rcases List.mem_cons.mp hm with hm | hm
    · rw [Prod.mk.injEq] at hm
      obtain ⟨h1, h2⟩ := hm
      subst h1; subst h2
      simp only [List.flatMap_cons, List.count_append, List.count_replicate]
      rw [count_flatMap_replicate_of_not_mem g j rest (sorted_head_lt lt Hirr hs)]
      simp
    · have hne : j ≠ k' := by
        intro hj
        exact sorted_head_lt lt Hirr hs (List.mem_map.mpr ⟨(j, v), hm, hj⟩)
      simp only [List.flatMap_cons, List.count_append, List.count_replicate]
      rw [ih (List.pairwise_cons.mp hs).2 hm]
      have : (k' == j) = false := by
        simp only [beq_eq_false_iff_ne, ne_eq]
        intro h
        exact hne h.symm
      simp [this]

theorem foldl_upsert_sorted {ν α : Type}
    (Htrans : ∀ {a b c : κ}, lt a b = true → lt b c = true → lt a c = true)
    (Hconn : ∀ {a b : κ}, lt a b = false → lt b a = false → a = b)
    (kOf : α → κ) (dOf : α → ν) (fOf : α → ν → ν) :
    ∀ (rs : List α) (m₀ : List (κ × ν)), SortedK lt m₀ →
      SortedK lt (rs.foldl (fun acc v => upsert lt (kOf v) (dOf v) (fOf v) acc) m₀) := by
  intro rs
  induction rs with
  | nil => intro m₀ h; exact h
  | cons r rs' ih =>
    intro m₀ h
    exact ih _ (upsert_sorted lt Htrans Hconn (kOf r) (dOf r) (fOf r) m₀ h)

theorem lookupN_foldl_count {α : Type}
    (Hirr : ∀ a : κ, lt a a = false)
    (Htrans : ∀ {a b c : κ}, lt a b = true → lt b c = true → lt a c = true)
    (Hconn : ∀ {a b : κ}, lt a b = false → lt b a = false → a = b)
    (key : α → κ) :
    ∀ (rs : List α) (m₀ : List (κ × Nat)), SortedK lt m₀ → ∀ j,
      lookupN (rs.foldl (fun acc v => upsert lt (key v) 0 (· + 1) acc) m₀) j
        = lookupN m₀ j + (rs.map key).count j := by
  intro rs
  induction rs with
  | nil => intro m₀ _ j; simp
  | cons r rs' ih =>
    intro m₀ hs j
    rw [List.foldl_cons,
      ih _ (upsert_sorted lt Htrans Hconn (key r) 0 (· + 1) m₀ hs) j]
    by_cases hj : j = key r
    · unfold lookupN
      rw [hj, lookupA_upsert_self lt Hirr Htrans (key r) 0 (· + 1) m₀ hs]
      simp only [Option.getD_some, List.map_cons, List.count_cons]
      simp
      omega
    · unfold lookupN
      rw [lookupA_upsert_ne lt (key r) 0 (· + 1) hj m₀]
      have : (key r == j) = false := by
        simp only [beq_eq_false_iff_ne, ne_eq]
        intro h
        exact hj h.symm
      simp [List.count_cons, this]

theorem upsert_values_pred {ν : Type} (P : ν → Prop) (k : κ) (d : ν) (f : ν → ν)
    (hfd : P (f d)) (hf : ∀ v, P v → P (f v)) :
    ∀ m : List (κ × ν), (∀ p ∈ m, P p.2) → ∀ p ∈ upsert lt k d f m, P p.2 := by
  intro m
  induction m with
  | nil =>
    intro _ p hp
    simp only [upsert, List.mem_singleton] at hp
    rw [hp]
    exact hfd
  | cons q rest ih =>
    intro hall p hp
    obtain ⟨k', v⟩ := q
    simp only [upsert] at hp
    by_cases h1 : k = k'
    · rw [if_pos h1] at hp
      rcases List.mem_cons.mp hp with hp | hp
      · rw [hp]
        exact hf v (hall (k', v) (by simp))
      · exact hall p (List.mem_cons_of_mem _ hp)
    · rw [if_neg h1] at hp
      by_cases h2 : lt k k' = true
      · rw [if_pos h2] at hp
        rcases List.mem_cons.mp hp with hp | hp
        · rw [hp]; exact hfd
        · exact hall p hp
      · rw [if_neg h2] at hp
        rcases List.mem_cons.mp hp with hp | hp
        · rw [hp]
          exact hall (k', v) (by simp)
        · exact ih (fun q hq => hall q (List.mem_cons_of_mem _ hq)) p hp

theorem foldl_upsert_pos {α : Type} (key : α → κ) :
    ∀ (rs : List α) (m₀ : List (κ × Nat)), (∀ p ∈ m₀, 0 < p.2) →
      ∀ p ∈ rs.foldl (fun acc v => upsert lt (key v) 0 (· + 1) acc) m₀, 0 < p.2 := by
  intro rs
  induction rs with
  | nil => intro m₀ h; exact h
  | cons r rs' ih =>
    intro m₀ h
    exact ih _ (upsert_values_pred lt (0 < ·) (key r) 0 (· + 1)
      (by exact Nat.one_pos) (fun v _ => by exact Nat.succ_pos v) m₀ h)

theorem sorted_ext {ν : Type}
    (Hirr : ∀ a : κ, lt a a = false)
    (Htrans : ∀ {a b c : κ}, lt a b = true → lt b c = true → lt a c = true) :
    ∀ (m₁ m₂ : List (κ × ν)), SortedK lt m₁ → SortedK lt m₂ →
      (∀ j, lookupA j m₁ = lookupA j m₂) → m₁ = m₂ := by
  intro m₁
  induction m₁ with
  | nil =>
    intro m₂ _ _ h
    cases m₂ with
    | nil => rfl
    | cons q r₂ =>
      obtain ⟨k₂, v₂⟩ := q
      have := h k₂
      simp [lookupA] at this
  | cons p r₁ ih =>
    intro m₂ hs₁ hs₂ h
    obtain ⟨k₁, v₁⟩ := p
    cases m₂ with
    | nil =>
      have := h k₁
      simp [lookupA] at this
    | cons q r₂ =>
      obtain ⟨k₂, v₂⟩ := q
      have hk : k₁ = k₂ := by
        by_contra hne
        have h₁ : lookupA k₁ ((k₂, v₂) :: r₂) = some v₁ := by
          rw [← h k₁]; simp [lookupA]
        have h₂ : lookupA k₂ ((k₁, v₁) :: r₁) = some v₂ := by
          rw [h k₂]; simp [lookupA]
        have hm₁ : k₁ ∈ r₂.map Prod.fst := by
          have := lookupA_isSome_mem k₁ _ _ h₁
          simp only [List.map_cons, List.mem_cons] at this
          rcases this with hc | hc
          · exact absurd hc hne
          · exact hc
        have hm₂ : k₂ ∈ r₁.map Prod.fst := by
          have := lookupA_isSome_mem k₂ _ _ h₂
          simp only [List.map_cons, List.mem_cons] at this
          rcases this with hc | hc
          · exact absurd hc.symm hne
          · exact hc
        have hlt21 : lt k₂ k₁ = true := by
          rcases List.mem_map.mp hm₁ with ⟨q', hq', hqk⟩
          have := (List.pairwise_cons.mp hs₂).1 q' hq'
          rw [hqk] at this
          exact this
        have hlt12 : lt k₁ k₂ = true := by
          rcases List.mem_map.mp hm₂ with ⟨q', hq', hqk⟩
          have := (List.pairwise_cons.mp hs₁).1 q' hq'
          rw [hqk] at this
          exact this
        have := Htrans hlt12 hlt21
        rw [Hirr] at this
        exact Bool.false_ne_true this
      subst hk
      have hv : v₁ = v₂ := by
        have := h k₁
        simp [lookupA] at this
        exact this
      subst hv
      congr 1
      refine ih r₂ (List.pairwise_cons.mp hs₁).2 (List.pairwise_cons.mp hs₂).2 ?_
      intro j
      by_cases hj : j = k₁
      · subst hj
        rw [lookupA_eq_none_of_not_mem j r₁ (sorted_head_lt lt Hirr hs₁),
          lookupA_eq_none_of_not_mem j r₂ (sorted_head_lt lt Hirr hs₂)]
      · have := h j
        simp only [lookupA, if_neg hj] at this
        exact this

end SortedAssocMore

theorem lines_map_sorted (c : CsvData) (width : Nat) :
    SortedK strLt (lines_map_from_csv c width) := by
  unfold lines_map_from_csv
  exact foldl_upsert_sorted strLt (fun h h' => strLt_trans h h')
    (fun h h' => strLt_conn h h') (rowKey c.delimiter width)
    (fun _ => 0) (fun _ => (· + 1)) _ [] List.Pairwise.nil

theorem lines_map_lookupN (c : CsvData) (width : Nat) (k : String) :
    lookupN (lines_map_from_csv c width) k = keyCount c width k := by
  unfold lines_map_from_csv keyCount
  rw [lookupN_foldl_count strLt strLt_irrefl (fun h h' => strLt_trans h h')
    (fun h h' => strLt_conn h h') (rowKey c.delimiter width) _ [] List.Pairwise.nil k]
  simp [lookupN, lookupA]

theorem lines_map_pos (c : CsvData) (width : Nat) :
    ∀ p ∈ lines_map_from_csv c width, 0 < p.2 := by
  unfold lines_map_from_csv
  exact foldl_upsert_pos strLt (rowKey c.delimiter width) _ [] (by simp)

theorem unionMap_sorted (a b : CsvData) : SortedK strLt (unionMap a b) := by
  unfold unionMap
  exact foldl_upsert_sorted strLt (fun h h' => strLt_trans h h')
    (fun h h' => strLt_conn h h') (rowKey a.delimiter (max a.line_width b.line_width))
    (fun _ => 0) (fun _ => (· + 1)) _ _ (lines_map_sorted a _)

theorem unionMap_lookupN (a b : CsvData) (k : String) :
    lookupN (unionMap a b) k
      = keyCount a (max a.line_width b.line_width) k
        + ((chunks b.line_width b.data).map
            (rowKey a.delimiter (max a.line_width b.line_width))).count k := by
  unfold unionMap
  rw [lookupN_foldl_count strLt strLt_irrefl (fun h h' => strLt_trans h h')
    (fun h h' => strLt_conn h h') (rowKey a.delimiter (max a.line_width b.line_width))
    _ _ (lines_map_sorted a _) k, lines_map_lookupN]

theorem unionMap_pos (a b : CsvData) : ∀ p ∈ unionMap a b, 0 < p.2 := by
  unfold unionMap
  exact foldl_upsert_pos strLt (rowKey a.delimiter (max a.line_width b.line_width))
    _ _ (lines_map_pos a _)

theorem le_foldl_max (csvs : List CsvData) :
    ∀ acc : Nat, acc ≤ csvs.foldl (fun a c => max a c.line_width) acc := by
  induction csvs with
  | nil => intro acc; exact Nat.le_refl _
  | cons c rest ih =>
    intro acc
    exact le_trans (Nat.le_max_left acc c.line_width) (ih _)

theorem le_maxWidth {c : CsvData} :
    ∀ {csvs : List CsvData}, c ∈ csvs → c.line_width ≤ maxWidth csvs := by
  have H : ∀ (csvs : List CsvData) (acc : Nat), c ∈ csvs →
      c.line_width ≤ csvs.foldl (fun a c => max a c.line_width) acc := by
    intro csvs
    induction csvs with
    | nil => intro acc hc; cases hc
    | cons c' rest ih =>
      intro acc hc
      rcases List.mem_cons.mp hc with hc | hc
      · subst hc
        exact le_trans (Nat.le_max_right acc c.line_width) (le_foldl_max rest _)
      · exact ih _ hc
  intro csvs hc
  exact H csvs 0 hc

theorem mapM_eq_some_map {α β : Type} (f : α → Option β) (g : α → β) :
    ∀ l : List α, (∀ x ∈ l, f x = some (g x)) → l.mapM f = some (l.map g) := by
  intro l
  induction l with
  | nil => intro _; rfl
  | cons x xs ih =>
    intro h
    rw [List.mapM_cons, h x (by simp), ih (fun y hy => h y (by simp [hy]))]
    rfl

theorem mapM_eq_none_of_mem {α β : Type} (f : α → Option β) :
    ∀ (l : List α) (x : α), x ∈ l → f x = none → l.mapM f = none := by
  intro l
  induction l with
  | nil => intro x hx; cases hx
  | cons y ys ih =>
    intro x hx hfx
    rw [List.mapM_cons]
    rcases List.mem_cons.mp hx with hx | hx
    · subst hx
      rw [hfx]
      rfl
    · cases hfy : f y with
      | none => rfl
      | some b =>
        rw [ih x hx hfx]
        rfl

theorem padRow_eq_some {w : Nat} {r : List String} (h : r.length ≤ w) :
    padRow w r = some (padRowT w r) := by
  unfold padRow padRowT
  rw [if_neg (Nat.not_lt.mpr h)]

theorem padRowT_length {w : Nat} {r : List String} (h : r.length ≤ w) :
    (padRowT w r).length = w := by
  simp only [padRowT, List.length_append, List.length_replicate]
  omega

theorem padCsv_eq_some {w : Nat} {c : CsvData}
    (h : ∀ r ∈ chunks c.line_width c.data, r.length ≤ w) :
    padCsv w c = some (padCsvT w c) := by
  unfold padCsv padCsvT
  rw [mapM_eq_some_map (padRow w) (padRowT w) _ (fun r hr => padRow_eq_some (h r hr))]
  rfl

theorem pad_eq_some {csvs : List CsvData} {w : Nat}
    (h : ∀ c ∈ csvs, ∀ r ∈ chunks c.line_width c.data, r.length ≤ w) :
    pad csvs w = some (padTotal csvs w) := by
  unfold pad padTotal
  exact mapM_eq_some_map (padCsv w) (padCsvT w) csvs (fun c hc => padCsv_eq_some (h c hc))

theorem pad_of_maxWidth_le {csvs : List CsvData} {w : Nat} (h : maxWidth csvs ≤ w) :
    pad csvs w = some (padTotal csvs w) :=
  pad_eq_some (fun c hc r hr =>
    le_trans (le_trans (chunks_length_le _ _ r hr) (le_maxWidth hc)) h)

/-- C1: the claim (and the spec) state that `from_raw_string` pads with
single-space tokens until the stored token count is an exact multiple of
`row_width`.  The code instead pushes `vec.len() % line_width` spaces,
which restores divisibility only when `2 * (len % width)` is itself a
multiple of `width` (e.g. always for widths 1 and 2, the only widths the
source's tests exercise): the 5-token input below with `row_width = 3`
stores 7 tokens, and `7 % 3 = 1 ≠ 0`. -/
theorem from_raw_string_claim_fails_at :
    (from_raw_string "a,b,c,d,e" ',' 3).data.length = 7 ∧
    (from_raw_string "a,b,c,d,e" ',' 3).data.length % 3 = 1 := by
  constructor <;> decide

/-- C2 counterexample: a single-element slice holding an empty grid makes
`intersection_all` return a PRESENT zero-row grid (the `try_fold` never
runs a step and returns the padded first grid unchecked), contradicting
the claim that a present result has a non-empty row set. -/
theorem intersection_all_counterexample :
    intersection_all [CsvData.mk [] ',' 1] = some (CsvData.mk [] ',' 1) ∧
    (CsvData.mk [] ',' 1).data = [] := by
  constructor
  · decide
  · rfl

theorem tryFoldInter_some_ne :
    ∀ (l : List CsvData) (acc r : CsvData), (acc.data ≠ [] ∨ l ≠ []) →
      tryFoldInter acc l = some r → r.data ≠ [] := by
  intro l
  induction l with
  | nil =>
    intro acc r h heq
    rcases h with h | h
    · simp only [tryFoldInter, Option.some.injEq] at heq
      rw [← heq]
      exact h
    · exact absurd rfl h
  | cons other rest ih =>
    intro acc r h heq
    cases hint : intersection acc other with
    | none =>
      simp only [tryFoldInter, hint] at heq
      cases heq
    | some res =>
      simp only [tryFoldInter, hint] at heq
      by_cases hres : res.data = []
      · rw [if_pos hres] at heq
        cases heq
      · rw [if_neg hres] at heq
        exact ih res r (Or.inl hres) heq

/-- C2 (amended): for slices with at least two grids, N-way intersection
never returns a present zero-row grid — a present result means every
fold step succeeded with a non-empty intermediate (and final) row set,
while an empty intermediate or an incompatible pair short-circuits the
whole fold to an absent result.  For a single-grid slice, however, the
fold runs no step and the padded first grid is returned unconditionally,
even when it has zero rows (whence the counterexample). -/
theorem intersection_all_amended :
    (∀ (csvs : List CsvData) (r : CsvData), 2 ≤ csvs.length →
      intersection_all csvs = some r → r.data ≠ []) ∧
    (∀ c : CsvData, intersection_all [c] = some (padCsvT c.line_width c)) := by
  constructor
  · intro csvs r h2 heq
    match csvs, h2 with
    | c1 :: c2 :: rest, _ =>
      unfold intersection_all at heq
      simp only [padTotal, List.map_cons] at heq
      exact tryFoldInter_some_ne _ _ r (Or.inr (by simp)) heq
  · intro c
    unfold intersection_all
    simp [padTotal, maxWidth, tryFoldInter, Nat.zero_max]

theorem intersection_all_amended_witness :
    (CsvData.mk ["x"] ',' 1).data ≠ [] ∧
    intersection_all [CsvData.mk [] ',' 2] = some (padCsvT 2 (CsvData.mk [] ',' 2)) :=
  ⟨intersection_all_amended.1 [CsvData.mk ["x"] ',' 1, CsvData.mk ["x"] ',' 1]
      (CsvData.mk ["x"] ',' 1) (by decide) (by decide),
   intersection_all_amended.2 (CsvData.mk [] ',' 2)⟩

/-- C7: whenever the target width is at least every row's natural length,
`pad` succeeds and re-emits every row extended with empty-string tokens
to exactly the target width; and whenever any row of any input grid has
more tokens than the target width, the usize subtraction underflows and
the Rust function panics — modeled as `pad` returning `none` — for
every such input. -/
theorem pad_claim (csvs : List CsvData) (w : Nat) :
    ((∀ c ∈ csvs, ∀ r ∈ chunks c.line_width c.data, r.length ≤ w) →
      pad csvs w = some (padTotal csvs w) ∧
      ∀ c ∈ csvs, ∀ r ∈ chunks c.line_width c.data, (padRowT w r).length = w) ∧
    ((∃ c ∈ csvs, ∃ r ∈ chunks c.line_width c.data, w < r.length) →
      pad csvs w = none) := by
  constructor
  · intro h
    refine ⟨pad_eq_some h, ?_⟩
    intro c hc r hr
    exact padRowT_length (h c hc r hr)
  · rintro ⟨c, hc, r, hr, hlen⟩
    have hrow : padRow w r = none := by
      unfold padRow
      rw [if_pos hlen]
    have hcsv : padCsv w c = none := by
      unfold padCsv
      rw [mapM_eq_none_of_mem (padRow w) _ r hr hrow]
      rfl
    exact mapM_eq_none_of_mem (padCsv w) csvs c hc hcsv

theorem pad_claim_witness :
    pad [CsvData.mk ["a", "b"] ',' 2] 3
      = some (padTotal [CsvData.mk ["a", "b"] ',' 2] 3) ∧
    pad [CsvData.mk ["a", "b"] ',' 2] 1 = none :=
  ⟨((pad_claim [CsvData.mk ["a", "b"] ',' 2] 3).1 (by decide)).1,
   (pad_claim [CsvData.mk ["a", "b"] ',' 2] 1).2 (by decide)⟩

/-- C10: `union_all` stores the caller-supplied `line_width` verbatim as
the result's `row_width`; when the computed padding target
`max line_width (maxWidth csvs)` is strictly larger (with positive
widths), every emitted row was padded to exactly the larger target,
while re-grouping the stored flat data uses the narrower stored width,
so every re-grouped row is strictly narrower than the emitted rows. -/
theorem union_all_claim (csvs : List CsvData) (d : Char) (lw : Nat) (hne : csvs ≠ []) :
    (union_all csvs d lw).line_width = lw ∧
    (0 < lw → lw < max lw (maxWidth csvs) →
      (∀ c ∈ padTotal csvs (max lw (maxWidth csvs)),
        ∀ row ∈ chunks c.line_width c.data, row.length = max lw (maxWidth csvs)) ∧
      (∀ row ∈ chunks (union_all csvs d lw).line_width (union_all csvs d lw).data,
        row.length < max lw (maxWidth csvs))) := by
  refine ⟨rfl, ?_⟩
  intro hlw hlt
  constructor
  · intro c' hc' row hrow
    rcases List.mem_map.mp hc' with ⟨c, hc, hcc⟩
    subst hcc
    have hW : 0 < max lw (maxWidth csvs) := lt_trans hlw hlt
    have hblocks : ∀ b ∈ (chunks c.line_width c.data).map
        (padRowT (max lw (maxWidth csvs))), b.length = max lw (maxWidth csvs) := by
      intro b hb
      rcases List.mem_map.mp hb with ⟨r, hr, hrb⟩
      subst hrb
      exact padRowT_length
        (le_trans (chunks_length_le _ _ r hr) (le_trans (le_maxWidth hc) (Nat.le_max_right _ _)))
    have : chunks (padCsvT (max lw (maxWidth csvs)) c).line_width
        (padCsvT (max lw (maxWidth csvs)) c).data
        = (chunks c.line_width c.data).map (padRowT (max lw (maxWidth csvs))) := by
      show chunks (max lw (maxWidth csvs)) _ = _
      exact chunks_of_blocks _ hW _ hblocks
    rw [this] at hrow
    exact hblocks row hrow
  · intro row hrow
    exact lt_of_le_of_lt (chunks_length_le _ _ row hrow) hlt

theorem union_all_claim_witness :
    (union_all [CsvData.mk ["a", "b", "c"] ',' 3] ',' 2).line_width = 2 ∧
    (∀ row ∈ chunks (union_all [CsvData.mk ["a", "b", "c"] ',' 3] ',' 2).line_width
        (union_all [CsvData.mk ["a", "b", "c"] ',' 3] ',' 2).data,
      row.length < max 2 (maxWidth [CsvData.mk ["a", "b", "c"] ',' 3])) :=
  ⟨(union_all_claim [CsvData.mk ["a", "b", "c"] ',' 3] ',' 2 (by decide)).1,
   ((union_all_claim [CsvData.mk ["a", "b", "c"] ',' 3] ',' 2 (by decide)).2
      (by decide) (by decide)).2⟩

theorem count_mapKeysRepeated (m : List (String × Nat)) (hs : SortedK strLt m)
    (k : String) : (mapKeysRepeated m).count k = lookupN m k := by
  cases hA : lookupA k m with
  | none =>
    have hnm : k ∉ m.map Prod.fst := by
      intro hmem
      rcases List.mem_map.mp hmem with ⟨⟨k', v'⟩, hp, hpk⟩
      rw [lookupA_of_mem_sorted strLt strLt_irrefl m k v' hs (hpk ▸ hp)] at hA
      cases hA
    rw [show mapKeysRepeated m = m.flatMap fun kv => List.replicate ((fun q => q.2) kv) kv.1
        from rfl,
      count_flatMap_replicate_of_not_mem (fun q => q.2) k m hnm]
    simp [lookupN, hA]
  | some v =>
    have hmem := lookupA_mem k m v hA
    rw [show mapKeysRepeated m = m.flatMap fun kv => List.replicate ((fun q => q.2) kv) kv.1
        from rfl,
      count_flatMap_replicate_of_mem strLt strLt_irrefl (fun q => q.2) k v m hs hmem]
    simp [lookupN, hA]

/-- C5: pairwise `union` of delimiter-compatible grids materializes the
merged multiplicity map: its result grid carries `grid_a`'s delimiter and
`row_width = max` of the two widths, and each row key occurs in the
materialized key sequence exactly `count-in-A + count-in-B` times, both
counts taken over row keys padded to the common width — multiset union,
not de-duplication. -/
theorem union_claim (a b : CsvData) (hd : a.delimiter = b.delimiter) :
    union a b = some ⟨(mapKeysRepeated (unionMap a b)).flatMap
        (fun s => splitOnChar a.delimiter s),
      a.delimiter, max a.line_width b.line_width⟩ ∧
    ∀ k, (mapKeysRepeated (unionMap a b)).count k
      = keyCount a (max a.line_width b.line_width) k
        + keyCount b (max a.line_width b.line_width) k := by
  constructor
  · unfold union
    rw [if_neg (not_not_intro hd)]
  · intro k
    rw [count_mapKeysRepeated _ (unionMap_sorted a b) k, unionMap_lookupN a b k]
    unfold keyCount
    rw [hd]

theorem union_claim_witness :
    (mapKeysRepeated (unionMap (CsvData.mk ["x"] ',' 1)
        (CsvData.mk ["x", "y"] ',' 1))).count "x"
      = keyCount (CsvData.mk ["x"] ',' 1) (max 1 1) "x"
        + keyCount (CsvData.mk ["x", "y"] ',' 1) (max 1 1) "x" :=
  (union_claim (CsvData.mk ["x"] ',' 1) (CsvData.mk ["x", "y"] ',' 1) rfl).2 "x"

theorem count_filter_flatMap (g : String × Nat → Nat) (p : String × Nat → Bool)
    (m : List (String × Nat)) (hs : SortedK strLt m) (k : String) :
    ((m.filter p).flatMap fun kv => List.replicate (g kv) kv.1).count k
      = match lookupA k m with
        | none => 0
        | some v => if p (k, v) then g (k, v) else 0 := by
  cases hA : lookupA k m with
  | none =>
    have hnm : k ∉ (m.filter p).map Prod.fst := by
      intro hmem
      rcases List.mem_map.mp hmem with ⟨⟨k', v'⟩, hq, hqk⟩
      have hqm : (k', v') ∈ m := List.mem_of_mem_filter hq
      have : lookupA k' m = some v' :=
        lookupA_of_mem_sorted strLt strLt_irrefl m k' v' hs hqm
      rw [show k' = k from hqk] at this
      rw [hA] at this
      cases this
    rw [count_flatMap_replicate_of_not_mem g k _ hnm]
  | some v =>
    by_cases hp : p (k, v) = true
    · have hmem : (k, v) ∈ m.filter p :=
        List.mem_filter.mpr ⟨lookupA_mem k m v hA, hp⟩
      rw [count_flatMap_replicate_of_mem strLt strLt_irrefl g k v _ (hs.filter p) hmem]
      show g (k, v) = if p (k, v) = true then g (k, v) else 0
      rw [if_pos hp]
    · have hnm : k ∉ (m.filter p).map Prod.fst := by
        intro hmem
        rcases List.mem_map.mp hmem with ⟨⟨k', v'⟩, hq, hqk⟩
        have hqm : (k', v') ∈ m := List.mem_of_mem_filter hq
        have hlk : lookupA k' m = some v' :=
          lookupA_of_mem_sorted strLt strLt_irrefl m k' v' hs hqm
        rw [show k' = k from hqk] at hlk
        rw [hA] at hlk
        have hvv : v' = v := by cases hlk; rfl
        have hpq := (List.mem_filter.mp hq).2
        rw [show k' = k from hqk, hvv] at hpq
        exact hp hpq
      rw [count_flatMap_replicate_of_not_mem g k _ hnm]
      show 0 = if p (k, v) = true then g (k, v) else 0
      rw [if_neg hp]

/-- C4: pairwise `intersection` of delimiter-compatible grids
materializes, for every row key, `min(count-in-A, count-in-B)` copies of
the key (counts over row keys padded to the common width
`max(A.row_width, B.row_width)`); a key absent from either multiplicity
map has both sides' count collapse through `min` to zero rows. -/
theorem intersection_claim (a b : CsvData) (hd : a.delimiter = b.delimiter) :
    intersection a b
      = some ⟨(interKeys (lines_map_from_csv a (max a.line_width b.line_width))
            (lines_map_from_csv b (max a.line_width b.line_width))).flatMap
          (fun s => splitOnChar a.delimiter s),
        a.delimiter, max a.line_width b.line_width⟩ ∧
    ∀ k, (interKeys (lines_map_from_csv a (max a.line_width b.line_width))
        (lines_map_from_csv b (max a.line_width b.line_width))).count k
      = min (keyCount a (max a.line_width b.line_width) k)
          (keyCount b (max a.line_width b.line_width) k) := by
  constructor
  · unfold intersection
    rw [if_neg (not_not_intro hd)]
  · intro k
    rw [← lines_map_lookupN a (max a.line_width b.line_width) k,
      ← lines_map_lookupN b (max a.line_width b.line_width) k]
    unfold interKeys
    rw [count_filter_flatMap (fun kv => min kv.2
        (lookupN (lines_map_from_csv b (max a.line_width b.line_width)) kv.1))
      (fun kv => (lookupA kv.1
        (lines_map_from_csv b (max a.line_width b.line_width))).isSome)
      (lines_map_from_csv a (max a.line_width b.line_width))
      (lines_map_sorted a (max a.line_width b.line_width)) k]
    cases hA : lookupA k (lines_map_from_csv a (max a.line_width b.line_width)) with
    | none => simp [lookupN, hA]
    | some va =>
      cases hB : lookupA k (lines_map_from_csv b (max a.line_width b.line_width)) with
      | none => simp [lookupN, hA, hB]
      | some vb => simp [lookupN, hA, hB]

theorem intersection_claim_witness :
    (interKeys (lines_map_from_csv (CsvData.mk ["x", "x", "y"] ',' 1) (max 1 1))
        (lines_map_from_csv (CsvData.mk ["x"] ',' 1) (max 1 1))).count "x"
      = min (keyCount (CsvData.mk ["x", "x", "y"] ',' 1) (max 1 1) "x")
          (keyCount (CsvData.mk ["x"] ',' 1) (max 1 1) "x") :=
  (intersection_claim (CsvData.mk ["x", "x", "y"] ',' 1) (CsvData.mk ["x"] ',' 1) rfl).2 "x"

theorem mem_diffKeys_lookupA_none {mA mB : List (String × Nat)} {k : String} :
    k ∈ diffKeys mA mB → lookupA k mB = none := by
  unfold diffKeys
  intro hm
  rcases List.mem_flatMap.mp hm with ⟨kv, hkv, hrep⟩
  have hk := List.eq_of_mem_replicate hrep
  have hp := (List.mem_filter.mp hkv).2
  rw [← hk] at hp
  exact Option.isNone_iff_eq_none.mp hp

theorem diffKeys_count (m1 m2 : List (String × Nat)) (hs1 : SortedK strLt m1)
    (k : String) :
    (diffKeys m1 m2).count k
      = match lookupA k m1 with
        | none => 0
        | some v => if lookupA k m2 = none then v else 0 := by
  unfold diffKeys
  rw [show (fun kv : String × Nat => List.replicate kv.2 kv.1)
      = fun kv => List.replicate ((fun q : String × Nat => q.2) kv) kv.1 from rfl,
    count_filter_flatMap (fun q => q.2) (fun kv => (lookupA kv.1 m2).isNone) m1 hs1 k]
  cases hA : lookupA k m1 with
  | none => rfl
  | some v =>
    show (if (lookupA k m2).isNone = true then v else 0) = _
    cases hB : lookupA k m2 <;> simp

/-- C3: pairwise `difference` of delimiter-compatible grids is
presence-based symmetric difference: the result is the A-only block
followed by the B-only block (in that order); no row key present in both
multiplicity maps occurs among the materialized keys; a key missing from
B's map occurs exactly its full A-count, and a key missing from A's map
exactly its full B-count (counts over keys padded to the common width). -/
theorem difference_claim (a b : CsvData) (hd : a.delimiter = b.delimiter) :
    difference a b
      = some ⟨lines_map_to_difference
            (lines_map_from_csv a (max a.line_width b.line_width))
            (lines_map_from_csv b (max a.line_width b.line_width)) a.delimiter
          ++ lines_map_to_difference
            (lines_map_from_csv b (max a.line_width b.line_width))
            (lines_map_from_csv a (max a.line_width b.line_width)) a.delimiter,
        a.delimiter, max a.line_width b.line_width⟩ ∧
    (∀ k, (lookupA k (lines_map_from_csv a (max a.line_width b.line_width))).isSome →
      (lookupA k (lines_map_from_csv b (max a.line_width b.line_width))).isSome →
      k ∉ diffKeys (lines_map_from_csv a (max a.line_width b.line_width))
            (lines_map_from_csv b (max a.line_width b.line_width))
          ++ diffKeys (lines_map_from_csv b (max a.line_width b.line_width))
            (lines_map_from_csv a (max a.line_width b.line_width))) ∧
    (∀ k, lookupA k (lines_map_from_csv b (max a.line_width b.line_width)) = none →
      (diffKeys (lines_map_from_csv a (max a.line_width b.line_width))
            (lines_map_from_csv b (max a.line_width b.line_width))
          ++ diffKeys (lines_map_from_csv b (max a.line_width b.line_width))
            (lines_map_from_csv a (max a.line_width b.line_width))).count k
        = keyCount a (max a.line_width b.line_width) k) ∧
    (∀ k, lookupA k (lines_map_from_csv a (max a.line_width b.line_width)) = none →
      (diffKeys (lines_map_from_csv a (max a.line_width b.line_width))
            (lines_map_from_csv b (max a.line_width b.line_width))
          ++ diffKeys (lines_map_from_csv b (max a.line_width b.line_width))
            (lines_map_from_csv a (max a.line_width b.line_width))).count k
        = keyCount b (max a.line_width b.line_width) k) := by
  refine ⟨?_, ?_, ?_, ?_⟩
  · unfold difference
    rw [if_neg (not_not_intro hd)]
  · intro k hsa hsb hmem
    rcases List.mem_append.mp hmem with hm | hm
    · rw [mem_diffKeys_lookupA_none hm] at hsb
      cases hsb
    · rw [mem_diffKeys_lookupA_none hm] at hsa
      cases hsa
  · intro k hB
    rw [List.count_append,
      diffKeys_count _ _ (lines_map_sorted a (max a.line_width b.line_width)) k,
      diffKeys_count _ _ (lines_map_sorted b (max a.line_width b.line_width)) k,
      ← lines_map_lookupN a (max a.line_width b.line_width) k]
    cases hA : lookupA k (lines_map_from_csv a (max a.line_width b.line_width)) with
    | none => simp [lookupN, hA, hB]
    | some va => simp [lookupN, hA, hB]
  · intro k hA
    rw [List.count_append,
      diffKeys_count _ _ (lines_map_sorted a (max a.line_width b.line_width)) k,
      diffKeys_count _ _ (lines_map_sorted b (max a.line_width b.line_width)) k,
      ← lines_map_lookupN b (max a.line_width b.line_width) k]
    cases hB : lookupA k (lines_map_from_csv b (max a.line_width b.line_width)) with
    | none => simp [lookupN, hA, hB]
    | some vb => simp [lookupN, hA, hB]

theorem difference_claim_witness :
    ("x" ∉ diffKeys (lines_map_from_csv (CsvData.mk ["x", "z"] ',' 1) (max 1 1))
          (lines_map_from_csv (CsvData.mk ["x", "y"] ',' 1) (max 1 1))
        ++ diffKeys (lines_map_from_csv (CsvData.mk ["x", "y"] ',' 1) (max 1 1))
          (lines_map_from_csv (CsvData.mk ["x", "z"] ',' 1) (max 1 1))) ∧
    (diffKeys (lines_map_from_csv (CsvData.mk ["x", "z"] ',' 1) (max 1 1))
          (lines_map_from_csv (CsvData.mk ["x", "y"] ',' 1) (max 1 1))
        ++ diffKeys (lines_map_from_csv (CsvData.mk ["x", "y"] ',' 1) (max 1 1))
          (lines_map_from_csv (CsvData.mk ["x", "z"] ',' 1) (max 1 1))).count "z"
      = keyCount (CsvData.mk ["x", "z"] ',' 1) (max 1 1) "z" :=
  ⟨(difference_claim (CsvData.mk ["x", "z"] ',' 1) (CsvData.mk ["x", "y"] ',' 1)
      rfl).2.1 "x" (by decide) (by decide),
   (difference_claim (CsvData.mk ["x", "z"] ',' 1) (CsvData.mk ["x", "y"] ',' 1)
      rfl).2.2.1 "z" (by decide)⟩

theorem lookupA_eq_of_pos {m₁ m₂ : List (String × Nat)}
    (h₁ : ∀ p ∈ m₁, 0 < p.2) (h₂ : ∀ p ∈ m₂, 0 < p.2) (k : String)
    (h : lookupN m₁ k = lookupN m₂ k) : lookupA k m₁ = lookupA k m₂ := by
  cases ha : lookupA k m₁ with
  | none =>
    cases hb : lookupA k m₂ with
    | none => rfl
    | some v₂ =>
      have hp := h₂ (k, v₂) (lookupA_mem k m₂ v₂ hb)
      simp [lookupN, ha, hb] at h
      omega
  | some v₁ =>
    cases hb : lookupA k m₂ with
    | none =>
      have hp := h₁ (k, v₁) (lookupA_mem k m₁ v₁ ha)
      simp [lookupN, ha, hb] at h
      omega
    | some v₂ =>
      simp [lookupN, ha, hb] at h
      rw [h]

theorem unionMap_comm (a b : CsvData) (hd : a.delimiter = b.delimiter) :
    unionMap a b = unionMap b a := by
  apply sorted_ext strLt strLt_irrefl (fun h h' => strLt_trans h h') _ _
    (unionMap_sorted a b) (unionMap_sorted b a)
  intro k
  apply lookupA_eq_of_pos (unionMap_pos a b) (unionMap_pos b a) k
  rw [unionMap_lookupN a b k, unionMap_lookupN b a k]
  unfold keyCount
  rw [hd, Nat.max_comm b.line_width a.line_width]
  exact Nat.add_comm _ _

theorem union_comm (a b : CsvData) (hd : a.delimiter = b.delimiter) :
    union a b = union b a := by
  unfold union
  rw [if_neg (not_not_intro hd), if_neg (not_not_intro hd.symm)]
  rw [unionMap_comm a b hd, hd, Nat.max_comm a.line_width b.line_width]

/-- C9: pairwise `union` is commutative on row multisets for grids with
equal delimiters — in fact the two result grids are equal outright
(same merged sorted map, same materialization), so their row multisets
coincide. -/
theorem union_comm_claim (a b : CsvData) (hd : a.delimiter = b.delimiter) :
    ∀ r₁ r₂ : CsvData, union a b = some r₁ → union b a = some r₂ →
      (↑(chunks r₁.line_width r₁.data) : Multiset (List String))
        = ↑(chunks r₂.line_width r₂.data) := by
  intro r₁ r₂ h₁ h₂
  rw [union_comm a b hd, h₂] at h₁
  cases h₁
  rfl

theorem union_comm_claim_witness :
    (↑(chunks (CsvData.mk ["x", "y"] ',' 1).line_width
        (CsvData.mk ["x", "y"] ',' 1).data) : Multiset (List String))
      = ↑(chunks (CsvData.mk ["x", "y"] ',' 1).line_width
        (CsvData.mk ["x", "y"] ',' 1).data) :=
  union_comm_claim (CsvData.mk ["x"] ',' 1) (CsvData.mk ["y"] ',' 1) rfl
    (CsvData.mk ["x", "y"] ',' 1) (CsvData.mk ["x", "y"] ',' 1) (by decide) (by decide)

theorem strMk_data (s : String) : (⟨s.data⟩ : String) = s := by
  cases s
  rfl

theorem data_foldl_append :
    ∀ (l : List String) (acc : String),
      (l.foldl (fun r s => r ++ s) acc).data = acc.data ++ (l.map String.data).flatten := by
  intro l
  induction l with
  | nil => intro acc; simp
  | cons s rest ih =>
    intro acc
    rw [List.foldl_cons, ih]
    simp [String.data_append]

theorem data_join (l : List String) :
    (String.join l).data = (l.map String.data).flatten := by
  show (l.foldl (fun r s => r ++ s) "").data = _
  rw [data_foldl_append]
  rfl

theorem splitCharList_no_sep (d : Char) :
    ∀ l : List Char, d ∉ l → splitCharList d l = [l] := by
  intro l
  induction l with
  | nil => intro _; rfl
  | cons c cs ih =>
    intro hd
    simp only [List.mem_cons, not_or] at hd
    have hcd : ¬ c = d := fun h => hd.1 h.symm
    simp only [splitCharList, if_neg hcd]
    rw [ih hd.2]

theorem splitCharList_sep (d : Char) :
    ∀ (t rest : List Char), d ∉ t →
      splitCharList d (t ++ d :: rest) = t :: splitCharList d rest := by
  intro t
  induction t with
  | nil =>
    intro rest _
    show splitCharList d (d :: rest) = [] :: splitCharList d rest
    simp [splitCharList]
  | cons c cs ih =>
    intro rest hd
    simp only [List.mem_cons, not_or] at hd
    have hcd : ¬ c = d := fun h => hd.1 h.symm
    simp only [List.cons_append, splitCharList, if_neg hcd, List.append_eq]
    rw [ih rest hd.2]

theorem splitCharList_lines (d : Char) :
    ∀ ls : List (List Char), (∀ l ∈ ls, d ∉ l) →
      splitCharList d (ls.map (· ++ [d])).flatten = ls ++ [[]] := by
  intro ls
  induction ls with
  | nil => intro _; rfl
  | cons l rest ih =>
    intro h
    simp only [List.map_cons, List.flatten_cons, List.append_assoc, List.singleton_append]
    rw [splitCharList_sep d l _ (h l (by simp)), ih (fun x hx => h x (by simp [hx]))]
    rfl

theorem joinD_data_cons (d : Char) (t : String) (r : String) (rest : List String) :
    (joinD d (t :: r :: rest)).data = t.data ++ d :: (joinD d (r :: rest)).data := by
  show (t ++ String.singleton d ++ joinD d (r :: rest)).data = _
  simp [String.data_append, String.singleton]

theorem split_joinD (d : Char) :
    ∀ row : List String, row ≠ [] → (∀ t ∈ row, d ∉ t.data) →
      splitCharList d (joinD d row).data = row.map String.data := by
  intro row
  induction row with
  | nil => intro h _; exact absurd rfl h
  | cons t rest ih =>
    intro _ htok
    cases rest with
    | nil =>
      show splitCharList d t.data = [t.data]
      exact splitCharList_no_sep d t.data (htok t (by simp))
    | cons r rest' =>
      rw [joinD_data_cons d t r rest',
        splitCharList_sep d t.data _ (htok t (by simp)),
        ih (by simp) (fun x hx => htok x (by simp [hx]))]
      rfl

theorem mem_joinD_data (d : Char) :
    ∀ (row : List String) (ch : Char), ch ∈ (joinD d row).data →
      ch = d ∨ ∃ t ∈ row, ch ∈ t.data := by
  intro row
  induction row with
  | nil => intro ch h; cases h
  | cons t rest ih =>
    intro ch h
    cases rest with
    | nil =>
      right
      exact ⟨t, by simp, h⟩
    | cons r rest' =>
      rw [joinD_data_cons d t r rest'] at h
      rcases List.mem_append.mp h with h | h
      · exact Or.inr ⟨t, by simp, h⟩
      · rcases List.mem_cons.mp h with h | h
        · exact Or.inl h
        · rcases ih ch h with h | ⟨t', ht', hc⟩
          · exact Or.inl h
          · exact Or.inr ⟨t', by simp [ht'], hc⟩

theorem count_joinD (d : Char) :
    ∀ row : List String, row ≠ [] → (∀ t ∈ row, d ∉ t.data) →
      (joinD d row).data.count d = row.length - 1 := by
  intro row
  induction row with
  | nil => intro h _; exact absurd rfl h
  | cons t rest ih =>
    intro _ htok
    cases rest with
    | nil =>
      show t.data.count d = 0
      exact List.count_eq_zero_of_not_mem (htok t (by simp))
    | cons r rest' =>
      rw [joinD_data_cons d t r rest', List.count_append, List.count_cons,
        ih (by simp) (fun x hx => htok x (by simp [hx])),
        List.count_eq_zero_of_not_mem (htok t (by simp))]
      simp

theorem foldl_max_const {α : Type} (f : α → Nat) (w : Nat) :
    ∀ (ls : List α) (acc : Nat), acc ≤ w → ls ≠ [] → (∀ l ∈ ls, f l = w) →
      ls.foldl (fun acc v => max acc (f v)) acc = w := by
  intro ls
  induction ls with
  | nil => intro acc _ h _; exact absurd rfl h
  | cons l rest ih =>
    intro acc hacc _ hall
    rw [List.foldl_cons, hall l (by simp)]
    cases rest with
    | nil =>
      show max acc w = w
      exact Nat.max_eq_right hacc
    | cons r rest' =>
      exact ih _ (le_trans (Nat.le_refl _) (by rw [Nat.max_eq_right hacc]))
        (by simp) (fun x hx => hall x (by simp [hx]))

theorem flatMap_map_eq {α β γ : Type} (f : α → β) (g : β → List γ) :
    ∀ l : List α, (l.map f).flatMap g = l.flatMap (fun x => g (f x)) := by
  intro l
  induction l with
  | nil => rfl
  | cons x xs ih =>
    simp only [List.map_cons, List.flatMap_cons, ih]

theorem flatMap_eq_flatten_of {α : Type} (f : List α → List α) :
    ∀ l : List (List α), (∀ r ∈ l, f r = r) → l.flatMap f = l.flatten := by
  intro l
  induction l with
  | nil => intro _; rfl
  | cons x xs ih =>
    intro h
    simp only [List.flatMap_cons, List.flatten_cons, h x (by simp),
      ih (fun r hr => h r (by simp [hr]))]

/-- C8 counterexample: the empty grid (with `row_width = 2`) satisfies the
claim's hypotheses — its token count 0 is a multiple of 2 and it has no
field values at all — but serializes to the empty file, which re-loads as
a grid with inferred `row_width = 0 ≠ 2`, so the round trip does not
reproduce the original grid. -/
theorem round_trip_counterexample :
    fromFileContents (toFileContents (CsvData.mk [] ',' 2)) ',' = CsvData.mk [] ',' 0 ∧
    fromFileContents (toFileContents (CsvData.mk [] ',' 2)) ',' ≠ CsvData.mk [] ',' 2 := by
  constructor <;> decide

/-- C8 (amended): for every grid with positive `row_width` whose token
count is an exact multiple of `row_width`, which has at least one token,
whose delimiter is not the newline character, whose field values contain
neither the delimiter nor a newline, and whose every row joins to a
non-empty line (so no serialized line is dropped by the non-empty-line
filter on re-load), serializing via the `to_file` text format and
re-loading via the `from_file` construction path reproduces the grid
exactly: same flat token sequence and the same (now inferred)
`row_width`. -/
theorem round_trip_amended (c : CsvData)
    (hw : 0 < c.line_width)
    (hmod : c.data.length % c.line_width = 0)
    (hne : c.data ≠ [])
    (hdelim : c.delimiter ≠ '\n')
    (htok : ∀ t ∈ c.data, c.delimiter ∉ t.data ∧ '\n' ∉ t.data)
    (hlines : ∀ r ∈ chunks c.line_width c.data, joinD c.delimiter r ≠ "") :
    fromFileContents (toFileContents c) c.delimiter = c := by
  obtain ⟨data, d, w⟩ := c
  simp only at hw hmod hne hdelim htok hlines ⊢
  have hrowlen : ∀ r ∈ chunks w data, r.length = w := chunks_length_exact w hw data hmod
  have hrowne : ∀ r ∈ chunks w data, r ≠ [] := by
    intro r hr hcon
    have := hrowlen r hr
    rw [hcon, List.length_nil] at this
    omega
  have hrowtok : ∀ r ∈ chunks w data, ∀ t ∈ r, d ∉ t.data ∧ '\n' ∉ t.data := by
    intro r hr t ht
    apply htok
    have hmem : t ∈ (chunks w data).flatten := List.mem_flatten.mpr ⟨r, hr, ht⟩
    rwa [chunks_flatten w hw data] at hmem
  have hfile : (toFileContents ⟨data, d, w⟩).data
      = (((chunks w data).map (fun r => (joinD d r).data)).map (· ++ ['\n'])).flatten := by
    unfold toFileContents
    rw [data_join]
    congr 1
    rw [List.map_map, List.map_map]
    have : (String.data ∘ fun s => joinD d s ++ "\n")
        = ((· ++ ['\n']) ∘ fun r => (joinD d r).data) := by
      funext r
      show (joinD d r ++ "\n").data = (joinD d r).data ++ ['\n']
      rw [String.data_append]
    rw [this]
  have hnol : ∀ l ∈ (chunks w data).map (fun r => (joinD d r).data), '\n' ∉ l := by
    intro l hl
    rcases List.mem_map.mp hl with ⟨r, hr, hrl⟩
    intro hmem
    rw [← hrl] at hmem
    rcases mem_joinD_data d r '\n' hmem with h | ⟨t, ht, hc⟩
    · exact hdelim h.symm
    · exact (hrowtok r hr t ht).2 hc
  have hsplit : splitOnChar '\n' (toFileContents ⟨data, d, w⟩)
      = ((chunks w data).map (fun r => joinD d r)) ++ [""] := by
    unfold splitOnChar
    rw [hfile, splitCharList_lines '\n' _ hnol, List.map_append, List.map_map]
    have : ((fun l => (⟨l⟩ : String)) ∘ fun r => (joinD d r).data)
        = fun r => joinD d r := by
      funext r
      exact strMk_data (joinD d r)
    rw [this]
    rfl
  have hfilter : ((splitOnChar '\n' (toFileContents ⟨data, d, w⟩)).filter
      (fun s => s != "")) = (chunks w data).map (fun r => joinD d r) := by
    rw [hsplit, List.filter_append]
    have h1 : ((chunks w data).map (fun r => joinD d r)).filter (fun s => s != "")
        = (chunks w data).map (fun r => joinD d r) := by
      apply List.filter_eq_self.mpr
      intro s hs
      rcases List.mem_map.mp hs with ⟨r, hr, hrs⟩
      rw [← hrs]
      simp only [bne_iff_ne, ne_eq]
      exact hlines r hr
    have h2 : ([""] : List String).filter (fun s => s != "") = [] := by simp
    rw [h1, h2, List.append_nil]
  have hsplitrow : ∀ r ∈ chunks w data, splitOnChar d (joinD d r) = r := by
    intro r hr
    unfold splitOnChar
    rw [split_joinD d r (hrowne r hr) (fun t ht => (hrowtok r hr t ht).1), List.map_map]
    have : ((fun l => (⟨l⟩ : String)) ∘ String.data) = id := by
      funext t
      exact strMk_data t
    rw [this, List.map_id]
  have hdata : ((chunks w data).map (fun r => joinD d r)).flatMap
      (fun v => splitOnChar d v) = data := by
    rw [flatMap_map_eq (fun r => joinD d r) (fun v => splitOnChar d v) (chunks w data),
      flatMap_eq_flatten_of _ _ hsplitrow, chunks_flatten w hw data]
  have hwidth : ((chunks w data).map (fun r => joinD d r)).foldl
      (fun acc v => max acc (v.data.count d + 1)) 0 = w := by
    apply foldl_max_const (fun v : String => v.data.count d + 1) w
    · exact Nat.zero_le w
    · intro hcon
      rw [chunks_cons w (Nat.pos_iff_ne_zero.mp hw) data hne] at hcon
      simp at hcon
    · intro l hl
      rcases List.mem_map.mp hl with ⟨r, hr, hrl⟩
      rw [← hrl, count_joinD d r (hrowne r hr) (fun t ht => (hrowtok r hr t ht).1),
        hrowlen r hr]
      omega
  show fromFileContents (toFileContents ⟨data, d, w⟩) d = (⟨data, d, w⟩ : CsvData)
  unfold fromFileContents
  simp only [hfilter, hdata, hwidth]

theorem round_trip_witness :
    fromFileContents (toFileContents (CsvData.mk ["a", "b", "c", " "] ',' 2))
        (CsvData.mk ["a", "b", "c", " "] ',' 2).delimiter
      = CsvData.mk ["a", "b", "c", " "] ',' 2 :=
  round_trip_amended (CsvData.mk ["a", "b", "c", " "] ',' 2) (by decide) (by decide)
    (by decide) (by decide) (by decide) (by decide)

theorem diffBuild_flat (n : Nat) :
    ∀ (pairs : List (Nat × CsvData))
      (acc : List (List String × List Char) × List (List String × Nat)),
      pairs.foldl
        (fun acc p => (chunks p.2.line_width p.2.data).foldl (diffStep n p.1) acc) acc
      = (pairs.flatMap (fun p =>
          (chunks p.2.line_width p.2.data).map (fun r => (p.1, r)))).foldl
        (fun acc e => diffStep n e.1 acc e.2) acc := by
  intro pairs
  induction pairs with
  | nil => intro acc; rfl
  | cons p ps ih =>
    intro acc
    rw [List.foldl_cons, ih, List.flatMap_cons, List.foldl_append, List.foldl_map]

theorem pair_fold_split (n : Nat) :
    ∀ (E : List (Nat × List String))
      (acc : List (List String × List Char) × List (List String × Nat)),
      E.foldl (fun acc e => diffStep n e.1 acc e.2) acc
      = (E.foldl (fun m e =>
            upsert rowLt e.2 (List.replicate n '0') (fun bits => bits.set e.1 '1') m) acc.1,
         E.foldl (fun m e => upsert rowLt e.2 0 (· + 1) m) acc.2) := by
  intro E
  induction E with
  | nil => intro acc; rfl
  | cons e E' ih =>
    intro acc
    rw [List.foldl_cons, ih]
    rfl

theorem set_range_map (c : Char) (f : Nat → Char) (n i : Nat) (h : i < n) :
    ((List.range n).map f).set i c = (List.range n).map (fun p => if p = i then c else f p) := by
  apply List.ext_getElem
  · simp
  · intro j h₁ h₂
    simp only [List.length_set, List.length_map, List.length_range] at h₁ h₂
    rw [List.getElem_set]
    simp only [List.getElem_map, List.getElem_range]
    by_cases hij : i = j
    · rw [if_pos hij, if_pos hij.symm]
    · rw [if_neg hij, if_neg (fun hc => hij hc.symm)]

theorem bits_fold_char (n : Nat) :
    ∀ (E H₀ : List (Nat × List String)) (m₀ : List (List String × List Char)),
      (∀ e ∈ E, e.1 < n) →
      SortedK rowLt m₀ →
      (∀ k, lookupA k m₀
        = if H₀.any (fun e => e.2 = k) then some (bitsOf n H₀ k) else none) →
      SortedK rowLt (E.foldl (fun m e =>
          upsert rowLt e.2 (List.replicate n '0') (fun bits => bits.set e.1 '1') m) m₀) ∧
      (∀ k, lookupA k (E.foldl (fun m e =>
          upsert rowLt e.2 (List.replicate n '0') (fun bits => bits.set e.1 '1') m) m₀)
        = if (H₀ ++ E).any (fun e => e.2 = k) then some (bitsOf n (H₀ ++ E) k)
          else none) := by
  intro E
  induction E with
  | nil =>
    intro H₀ m₀ _ hs hchar
    simp only [List.foldl_nil, List.append_nil]
    exact ⟨hs, hchar⟩
  | cons e E' ih =>
    intro H₀ m₀ hlt hs hchar
    obtain ⟨i, r⟩ := e
    have hin : i < n := hlt (i, r) (by simp)
    have hs₁ : SortedK rowLt (upsert rowLt r (List.replicate n '0')
        (fun bits => bits.set i '1') m₀) :=
      upsert_sorted rowLt (fun h h' => rowLt_trans h h') (fun h h' => rowLt_conn h h')
        r (List.replicate n '0') (fun bits => bits.set i '1') m₀ hs
    have hchar₁ : ∀ k, lookupA k (upsert rowLt r (List.replicate n '0')
          (fun bits => bits.set i '1') m₀)
        = if (H₀ ++ [(i, r)]).any (fun e => e.2 = k)
          then some (bitsOf n (H₀ ++ [(i, r)]) k) else none := by
      intro k
      by_cases hk : k = r
      · subst hk
        rw [lookupA_upsert_self rowLt rowLt_irrefl (fun h h' => rowLt_trans h h')
          k (List.replicate n '0') (fun bits => bits.set i '1') m₀ hs]
        have hany : (H₀ ++ [(i, k)]).any (fun e => e.2 = k) = true := by
          simp [List.any_append]
        rw [if_pos hany, hchar k]
        by_cases h₀ : H₀.any (fun e => e.2 = k) = true
        · rw [if_pos h₀]
          simp only [Option.getD_some]
          unfold bitsOf
          rw [set_range_map '1' _ n i hin]
          refine congrArg some ?_
          apply List.map_congr_left
          intro p _
          by_cases hpi : p = i
          · rw [if_pos hpi, if_pos (by simp [hpi])]
          · rw [if_neg hpi]
            have : ((p, k) ∈ H₀ ++ [(i, k)]) ↔ ((p, k) ∈ H₀) := by
              simp only [List.mem_append, List.mem_singleton, Prod.mk.injEq]
              constructor
              · rintro (h | ⟨h1, h2⟩)
                · exact h
                · exact absurd h1 hpi
              · exact Or.inl
            rw [if_congr this rfl rfl]
        · rw [if_neg h₀]
          simp only [Option.getD_none]
          have hrep : (List.range n).map (fun _ => '0') = List.replicate n '0' := by
            simp
          rw [← hrep, set_range_map '1' _ n i hin]
          unfold bitsOf
          refine congrArg some ?_
          apply List.map_congr_left
          intro p _
          have hnotH : (p, k) ∉ H₀ := by
            intro hc
            rw [List.any_eq_true] at h₀
            exact h₀ ⟨(p, k), hc, by simp⟩
          by_cases hpi : p = i
          · rw [if_pos hpi, if_pos (by simp [hpi])]
          · rw [if_neg hpi, if_neg (by
              simp only [List.mem_append, List.mem_singleton, Prod.mk.injEq, not_or]
              exact ⟨hnotH, fun hc => hpi hc.1⟩)]
      · rw [lookupA_upsert_ne rowLt r (List.replicate n '0')
          (fun bits => bits.set i '1') hk m₀, hchar k]
        have hany : (H₀ ++ [(i, r)]).any (fun e => e.2 = k)
            = H₀.any (fun e => e.2 = k) := by
          simp only [List.any_append, List.any_cons, List.any_nil, Bool.or_false]
          have : decide (r = k) = false := by
            simp only [decide_eq_false_iff_not]
            exact fun hc => hk hc.symm
          rw [this]
          simp
        rw [hany]
        have hbits : bitsOf n (H₀ ++ [(i, r)]) k = bitsOf n H₀ k := by
          unfold bitsOf
          apply List.map_congr_left
          intro p _
          have : ((p, k) ∈ H₀ ++ [(i, r)]) ↔ ((p, k) ∈ H₀) := by
            simp only [List.mem_append, List.mem_singleton, Prod.mk.injEq]
            constructor
            · rintro (h | ⟨h1, h2⟩)
              · exact h
              · exact absurd h2 hk
            · exact Or.inl
          rw [if_congr this rfl rfl]
        rw [hbits]
    have := ih (H₀ ++ [(i, r)]) _ (fun e he => hlt e (by simp [he])) hs₁ hchar₁
    rw [List.append_assoc] at this
    simpa using this

theorem count_flatMap {α β : Type} [BEq β] (f : α → List β) (k : β) :
    ∀ l : List α, (l.flatMap f).count k = (l.map (fun x => (f x).count k)).sum := by
  intro l
  induction l with
  | nil => rfl
  | cons x xs ih =>
    simp only [List.flatMap_cons, List.count_append, List.map_cons, List.sum_cons, ih]

theorem enumFrom_flatMap_snd {α β : Type} (h : α → List β) :
    ∀ (l : List α) (i : Nat), (List.enumFrom i l).flatMap (fun p => h p.2) = l.flatMap h := by
  intro l
  induction l with
  | nil => intro i; rfl
  | cons x xs ih =>
    intro i
    show (h x) ++ (List.enumFrom (i + 1) xs).flatMap (fun p => h p.2) = _
    rw [ih (i + 1)]
    rfl

theorem enumFrom_countP {α : Type} (p : α → Bool) :
    ∀ (l : List α) (i : Nat),
      (List.enumFrom i l).countP (fun q => p q.2) = l.countP p := by
  intro l
  induction l with
  | nil => intro i; rfl
  | cons x xs ih =>
    intro i
    rw [List.enumFrom_cons, List.countP_cons, List.countP_cons, ih (i + 1)]

theorem num_ones_bitsOf (n : Nat) (H : List (Nat × List String)) (k : List String) :
    num_ones (bitsOf n H k) = true
      ↔ ((List.range n).filter (fun p => decide ((p, k) ∈ H))).length = 1 := by
  unfold num_ones bitsOf
  rw [beq_iff_eq]
  have h₁ : (((List.range n).map (fun p => if (p, k) ∈ H then '1' else '0')).filter
        (fun c => decide (c = '1'))).length
      = ((List.range n).filter (fun p => decide ((p, k) ∈ H))).length := by
    rw [← List.countP_eq_length_filter, ← List.countP_eq_length_filter, List.countP_map]
    apply List.countP_congr
    intro p _
    show decide ((if (p, k) ∈ H then '1' else '0') = '1') = true
      ↔ decide ((p, k) ∈ H) = true
    by_cases hp : (p, k) ∈ H
    · simp [hp]
    · simp [hp]
  rw [h₁]

theorem count_dec_eq_count (k : List String) :
    ∀ l : List (List String),
      @List.count (List String) instBEqOfDecidableEq k l = l.count k := by
  intro l
  induction l with
  | nil => rfl
  | cons x xs ih =>
    show List.countP (fun y => @BEq.beq _ instBEqOfDecidableEq y k) (x :: xs)
        = List.countP (fun y => y == k) (x :: xs)
    rw [List.countP_cons, List.countP_cons]
    have hif : (@BEq.beq _ instBEqOfDecidableEq x k) = (x == k) := by
      by_cases h : x = k
      · subst h
        simp
      · have h1 : (@BEq.beq _ instBEqOfDecidableEq x k) = false := by
          show decide (x = k) = false
          exact decide_eq_false h
        have h2 : (x == k) = false := by
          rw [beq_eq_false_iff_ne]
          exact h
        rw [h1, h2]
    rw [hif]
    congr 1

theorem range_filter_events (k : List String) (padded : List CsvData) :
    ((List.range padded.length).filter (fun p => decide ((p, k) ∈
        padded.enum.flatMap (fun q =>
          (chunks q.2.line_width q.2.data).map (fun r => (q.1, r)))))).length
      = (padded.filter (fun g => decide (k ∈ chunks g.line_width g.data))).length := by
  have hmem : ∀ q ∈ padded.enum,
      ((q.1, k) ∈ padded.enum.flatMap (fun q =>
          (chunks q.2.line_width q.2.data).map (fun r => (q.1, r)))
        ↔ k ∈ chunks q.2.line_width q.2.data) := by
    intro q hq
    constructor
    · intro hE
      rcases List.mem_flatMap.mp hE with ⟨q', hq', hmm⟩
      rcases List.mem_map.mp hmm with ⟨r, hr, hrq⟩
      rw [Prod.mk.injEq] at hrq
      obtain ⟨h1, h2⟩ := hrq
      have hnd : (padded.enum.map Prod.fst).Nodup := by
        rw [List.enum_map_fst]
        exact List.nodup_range _
      have hqq : q' = q := List.inj_on_of_nodup_map hnd hq' hq h1
      rw [← hqq, ← h2]
      exact hr
    · intro hk
      exact List.mem_flatMap.mpr ⟨q, hq, List.mem_map.mpr ⟨k, hk, rfl⟩⟩
  rw [← List.countP_eq_length_filter, ← List.countP_eq_length_filter,
    show List.range padded.length = padded.enum.map Prod.fst
      from (List.enum_map_fst padded).symm,
    List.countP_map,
    show padded.countP (fun g => decide (k ∈ chunks g.line_width g.data))
        = (List.enumFrom 0 padded).countP
          (fun q => decide (k ∈ chunks q.2.line_width q.2.data))
      from (enumFrom_countP _ padded 0).symm]
  apply List.countP_congr
  intro q hq
  show decide ((q.1, k) ∈ _) = true ↔ decide (k ∈ chunks q.2.line_width q.2.data) = true
  simp only [decide_eq_true_eq]
  exact hmem q hq

theorem map_flatMap_eq {α β γ : Type} (f : α → List β) (g : β → γ) :
    ∀ l : List α, (l.flatMap f).map g = l.flatMap (fun x => (f x).map g) := by
  intro l
  induction l with
  | nil => rfl
  | cons x xs ih =>
    simp only [List.flatMap_cons, List.map_append, ih]

theorem diffBuild_spec (padded : List CsvData) :
    SortedK rowLt (diffBuild padded.length padded.enum).1 ∧
    (∀ k, lookupA k (diffBuild padded.length padded.enum).1
      = if (padded.enum.flatMap (fun q =>
            (chunks q.2.line_width q.2.data).map (fun r => (q.1, r)))).any
            (fun e => e.2 = k)
        then some (bitsOf padded.length (padded.enum.flatMap (fun q =>
            (chunks q.2.line_width q.2.data).map (fun r => (q.1, r)))) k)
        else none) ∧
    (∀ k, lookupN (diffBuild padded.length padded.enum).2 k
      = (padded.map (fun g => (chunks g.line_width g.data).count k)).sum) := by
  have hE_lt : ∀ e ∈ padded.enum.flatMap (fun q =>
      (chunks q.2.line_width q.2.data).map (fun r => (q.1, r))), e.1 < padded.length := by
    intro e he
    rcases List.mem_flatMap.mp he with ⟨q, hq, hmm⟩
    rcases List.mem_map.mp hmm with ⟨r, hr, hrq⟩
    have hq1 : q.1 ∈ padded.enum.map Prod.fst := List.mem_map.mpr ⟨q, hq, rfl⟩
    rw [List.enum_map_fst] at hq1
    rw [← hrq]
    exact List.mem_range.mp hq1
  have hbuild : diffBuild padded.length padded.enum
      = ((padded.enum.flatMap (fun q =>
            (chunks q.2.line_width q.2.data).map (fun r => (q.1, r)))).foldl
          (fun m e => upsert rowLt e.2 (List.replicate padded.length '0')
            (fun bits => bits.set e.1 '1') m) [],
         (padded.enum.flatMap (fun q =>
            (chunks q.2.line_width q.2.data).map (fun r => (q.1, r)))).foldl
          (fun m e => upsert rowLt e.2 0 (· + 1) m) []) := by
    unfold diffBuild
    rw [diffBuild_flat, pair_fold_split]
  have hbits := bits_fold_char padded.length
    (padded.enum.flatMap (fun q =>
      (chunks q.2.line_width q.2.data).map (fun r => (q.1, r)))) [] []
    hE_lt List.Pairwise.nil (fun k => by simp [lookupA])
  rw [List.nil_append] at hbits
  refine ⟨?_, ?_, ?_⟩
  · rw [hbuild]
    exact hbits.1
  · intro k
    rw [hbuild]
    exact hbits.2 k
  · intro k
    rw [hbuild]
    show lookupN ((padded.enum.flatMap (fun q =>
        (chunks q.2.line_width q.2.data).map (fun r => (q.1, r)))).foldl
      (fun m e => upsert rowLt e.2 0 (· + 1) m) []) k = _
    rw [lookupN_foldl_count rowLt rowLt_irrefl (fun h h' => rowLt_trans h h')
      (fun h h' => rowLt_conn h h') Prod.snd _ [] List.Pairwise.nil k]
    have hsnd : (padded.enum.flatMap (fun q =>
          (chunks q.2.line_width q.2.data).map (fun r => (q.1, r)))).map Prod.snd
        = padded.flatMap (fun g => chunks g.line_width g.data) := by
      rw [map_flatMap_eq]
      have : (fun q : Nat × CsvData =>
            ((chunks q.2.line_width q.2.data).map (fun r => (q.1, r))).map Prod.snd)
          = fun q : Nat × CsvData => chunks q.2.line_width q.2.data := by
        funext q
        rw [List.map_map]
        exact List.map_id _
      rw [this]
      exact enumFrom_flatMap_snd (fun g => chunks g.line_width g.data) padded 0
    rw [hsnd, count_dec_eq_count, count_flatMap]
    simp [lookupN, lookupA]

theorem events_map_snd (padded : List CsvData) :
    (padded.enum.flatMap (fun q =>
        (chunks q.2.line_width q.2.data).map (fun r => (q.1, r)))).map Prod.snd
      = padded.flatMap (fun g => chunks g.line_width g.data) := by
  rw [map_flatMap_eq]
  have h : (fun q : Nat × CsvData =>
        ((chunks q.2.line_width q.2.data).map (fun r => (q.1, r))).map Prod.snd)
      = fun q : Nat × CsvData => chunks q.2.line_width q.2.data := by
    funext q
    rw [List.map_map]
    exact List.map_id _
  rw [h]
  exact enumFrom_flatMap_snd (fun g => chunks g.line_width g.data) padded 0

/-- C6: for every non-empty slice of grids, `difference_all` retains a
row key in its output iff the key's presence bitstring over the padded
grids contains exactly one `'1'` — the key occurs in exactly one of the
N inputs — and each retained key is emitted repeated its total
accumulated occurrence count across all padded grids, in lexicographic
(sorted-map) key order. -/
theorem difference_all_claim (csvs : List CsvData) (hne : csvs ≠ []) :
    ∃ ks : List (List String),
      ks.Pairwise (fun r₁ r₂ => rowLt r₁ r₂ = true) ∧
      (∀ k, k ∈ ks ↔
        ((padTotal csvs (maxWidth csvs)).filter
          (fun g => decide (k ∈ chunks g.line_width g.data))).length = 1) ∧
      (difference_all csvs).data
        = ks.flatMap (fun k => (List.replicate
            (((padTotal csvs (maxWidth csvs)).map
              (fun g => (chunks g.line_width g.data).count k)).sum) k).flatten) := by
  obtain ⟨hsorted, hlook, hcount⟩ := diffBuild_spec (padTotal csvs (maxWidth csvs))
  refine ⟨((diffBuild (padTotal csvs (maxWidth csvs)).length
      (padTotal csvs (maxWidth csvs)).enum).1.filter
      (fun kv => num_ones kv.2)).map Prod.fst, ?_, ?_, ?_⟩
  · exact List.pairwise_map.mpr (hsorted.filter _)
  · intro k
    constructor
    · intro hk
      rcases List.mem_map.mp hk with ⟨kv, hkvf, hkv1⟩
      obtain ⟨hkvm, hkvn⟩ := List.mem_filter.mp hkvf
      have hlkv : lookupA kv.1 (diffBuild (padTotal csvs (maxWidth csvs)).length
          (padTotal csvs (maxWidth csvs)).enum).1 = some kv.2 :=
        lookupA_of_mem_sorted rowLt rowLt_irrefl _ kv.1 kv.2 hsorted hkvm
      rw [hlook kv.1] at hlkv
      by_cases hany : ((padTotal csvs (maxWidth csvs)).enum.flatMap (fun q =>
          (chunks q.2.line_width q.2.data).map (fun r => (q.1, r)))).any
          (fun e => e.2 = kv.1) = true
      · rw [if_pos hany] at hlkv
        have hbits : kv.2 = bitsOf (padTotal csvs (maxWidth csvs)).length
            ((padTotal csvs (maxWidth csvs)).enum.flatMap (fun q =>
              (chunks q.2.line_width q.2.data).map (fun r => (q.1, r)))) kv.1 :=
          (Option.some.inj hlkv).symm
        rw [hbits] at hkvn
        have := (num_ones_bitsOf _ _ _).mp hkvn
        rw [range_filter_events kv.1 (padTotal csvs (maxWidth csvs))] at this
        rw [← hkv1]
        exact this
      · rw [if_neg hany] at hlkv
        simp at hlkv
    · intro hlen
      have hmemg : ∃ g ∈ padTotal csvs (maxWidth csvs),
          k ∈ chunks g.line_width g.data := by
        cases hf : (padTotal csvs (maxWidth csvs)).filter
            (fun g => decide (k ∈ chunks g.line_width g.data)) with
        | nil => rw [hf] at hlen; cases hlen
        | cons g t =>
          have hg : g ∈ (padTotal csvs (maxWidth csvs)).filter
              (fun g => decide (k ∈ chunks g.line_width g.data)) := by
            rw [hf]; simp
          obtain ⟨hg1, hg2⟩ := List.mem_filter.mp hg
          exact ⟨g, hg1, by simpa using hg2⟩
      have hany : ((padTotal csvs (maxWidth csvs)).enum.flatMap (fun q =>
          (chunks q.2.line_width q.2.data).map (fun r => (q.1, r)))).any
          (fun e => e.2 = k) = true := by
        rw [List.any_eq_true]
        obtain ⟨g, hg, hkg⟩ := hmemg
        have : k ∈ ((padTotal csvs (maxWidth csvs)).enum.flatMap (fun q =>
            (chunks q.2.line_width q.2.data).map (fun r => (q.1, r)))).map Prod.snd := by
          rw [events_map_snd]
          exact List.mem_flatMap.mpr ⟨g, hg, hkg⟩
        rcases List.mem_map.mp this with ⟨e, he, hek⟩
        exact ⟨e, he, by simp [hek]⟩
      have hlkv : lookupA k (diffBuild (padTotal csvs (maxWidth csvs)).length
          (padTotal csvs (maxWidth csvs)).enum).1
          = some (bitsOf (padTotal csvs (maxWidth csvs)).length
            ((padTotal csvs (maxWidth csvs)).enum.flatMap (fun q =>
              (chunks q.2.line_width q.2.data).map (fun r => (q.1, r)))) k) := by
        rw [hlook k, if_pos hany]
      have hnum : num_ones (bitsOf (padTotal csvs (maxWidth csvs)).length
          ((padTotal csvs (maxWidth csvs)).enum.flatMap (fun q =>
            (chunks q.2.line_width q.2.data).map (fun r => (q.1, r)))) k) = true := by
        rw [num_ones_bitsOf, range_filter_events k (padTotal csvs (maxWidth csvs))]
        exact hlen
      refine List.mem_map.mpr ⟨(k, bitsOf (padTotal csvs (maxWidth csvs)).length
          ((padTotal csvs (maxWidth csvs)).enum.flatMap (fun q =>
            (chunks q.2.line_width q.2.data).map (fun r => (q.1, r)))) k),
        List.mem_filter.mpr ⟨lookupA_mem k _ _ hlkv, hnum⟩, rfl⟩
  · show ((diffBuild (padTotal csvs (maxWidth csvs)).length
        (padTotal csvs (maxWidth csvs)).enum).1.filter
        (fun kv => num_ones kv.2)).flatMap
        (fun kv => (List.replicate (lookupN (diffBuild
          (padTotal csvs (maxWidth csvs)).length
          (padTotal csvs (maxWidth csvs)).enum).2 kv.1) kv.1).flatten) = _
    rw [flatMap_map_eq]
    have heq : (fun kv : List String × List Char =>
        (List.replicate (lookupN (diffBuild (padTotal csvs (maxWidth csvs)).length
          (padTotal csvs (maxWidth csvs)).enum).2 kv.1) kv.1).flatten)
        = fun kv : List String × List Char =>
          (List.replicate (((padTotal csvs (maxWidth csvs)).map
            (fun g => (chunks g.line_width g.data).count kv.1)).sum) kv.1).flatten := by
      funext kv
      rw [hcount kv.1]
    rw [heq]

theorem difference_all_claim_witness :
    ∃ ks : List (List String),
      ks.Pairwise (fun r₁ r₂ => rowLt r₁ r₂ = true) ∧
      (∀ k, k ∈ ks ↔
        ((padTotal [CsvData.mk ["a"] ',' 1, CsvData.mk ["a", "b"] ',' 1]
            (maxWidth [CsvData.mk ["a"] ',' 1, CsvData.mk ["a", "b"] ',' 1])).filter
          (fun g => decide (k ∈ chunks g.line_width g.data))).length = 1) ∧
      (difference_all [CsvData.mk ["a"] ',' 1, CsvData.mk ["a", "b"] ',' 1]).data
        = ks.flatMap (fun k => (List.replicate
            (((padTotal [CsvData.mk ["a"] ',' 1, CsvData.mk ["a", "b"] ',' 1]
                (maxWidth [CsvData.mk ["a"] ',' 1, CsvData.mk ["a", "b"] ',' 1])).map
              (fun g => (chunks g.line_width g.data).count k)).sum) k).flatten) :=
  difference_all_claim [CsvData.mk ["a"] ',' 1, CsvData.mk ["a", "b"] ',' 1] (by decide)
